import Mathlib

/-!
Verification of the databaser subset-closure engine (src/databaser/core)
against its natural-language specification.

The development shallowly embeds the relevant parts of the source:

* the schema model of `db_entities.py` (`DBColumn`, `DBTable` and their
  derived foreign-key priority buckets);
* `is_full_prepared` and the fixed slack `inaccuracy_count = 100`;
* `topological_sort` of `helpers.py` (Kahn's algorithm over insertion-ordered
  dictionaries);
* the SQL builder of `repositories.py` (chunking, Cartesian combination of
  chunked conditions, dropping of degenerate queries);
* the query runner of `collectors.py` (query-hash deduplication, swallowed
  fetch errors);
* a sequentialised state-transition model of the five collector stages
  (key table, full transfer, key-column closure, generic closure,
  dependency-sorted closure).

Machine details that the claims do not depend on (connection pooling,
logging, statistics) are omitted.  The cooperative-concurrency fan-outs of
the source (`asyncio.wait` over task lists) are modelled by folding the
tasks sequentially in their creation order; this is one legal schedule of
the single-threaded event loop, and every property proved or refuted below
is insensitive to the interleaving chosen (the per-table sets only grow by
unions and the ready flags are stable inside each stage).
-/

namespace Databaser

/-! ### Schema model (db_entities.py)

A column as produced by the schema-loading stage: `constraintTypes` is the
accumulated list of constraint kinds (`PRIMARY KEY`, `FOREIGN KEY`,
`UNIQUE`), `constraintTable` the name of the referenced table for foreign
keys.  Note that for a `PRIMARY KEY` (or `UNIQUE`) constraint the catalog
query of `repositories.py` reports the owning table itself as
`constraint_table_name`, so primary-key columns carry their own table in
`constraintTable`; concrete schemas below reproduce that. -/

structure DBColumn where
  name : String
  tableName : String
  dataType : String
  constraintTable : Option String
  constraintTypes : List String
  deriving DecidableEq, Repr

/-- A table of the schema model: its name and its columns in the order of
`DBTable.columns.values()` (insertion order). -/
structure DBTableDef where
  name : String
  columns : List DBColumn
  deriving DecidableEq, Repr

/-- The static schema: the list of tables, in the insertion order of
`DstDatabase.tables`. -/
abbrev Schema := List DBTableDef

/-- The configuration values read from the environment (`databaser.settings`).
Their meaning is fixed by the spec, sections 6 and 3. -/
structure Config where
  keyTableName : String
  keyColumnNames : List String
  excludedTables : List String
  fullTransferTables : List String
  genericTables : List String
  deriving Repr

/-- `DBColumn.is_foreign_key`. -/
def DBColumn.isForeignKey (c : DBColumn) : Bool :=
  c.constraintTypes.contains "FOREIGN KEY"

/-- `DBColumn.is_primary_key`. -/
def DBColumn.isPrimaryKey (c : DBColumn) : Bool :=
  c.constraintTypes.contains "PRIMARY KEY"

/-- `DBColumn.is_unique`: a UNIQUE constraint, or the combination
foreign key and primary key. -/
def DBColumn.isUnique (c : DBColumn) : Bool :=
  c.constraintTypes.contains "UNIQUE" || (c.isForeignKey && c.isPrimaryKey)

/-- `DBColumn.is_self_fk`: a foreign key whose referenced table is the
owning table itself. -/
def DBColumn.isSelfFk (c : DBColumn) : Bool :=
  c.isForeignKey && c.constraintTable == some c.tableName

/-- `DBColumn.is_key_column`: the name is one of the configured key-column
names, or the column references the configured key table. -/
def DBColumn.isKeyColumn (cfg : Config) (c : DBColumn) : Bool :=
  cfg.keyColumnNames.contains c.name || c.constraintTable == some cfg.keyTableName

/-- Lookup of a table of the schema by name (`DstDatabase.tables[name]`). -/
def lookupTable (schema : Schema) (n : String) : Option DBTableDef :=
  schema.find? (fun t => t.name == n)

/-- `DBTable.key_column`: the first column that is a key column. -/
def DBTableDef.keyColumn (cfg : Config) (t : DBTableDef) : Option DBColumn :=
  t.columns.find? (DBColumn.isKeyColumn cfg)

/-- `DBTable.with_key_column`. -/
def DBTableDef.withKeyColumn (cfg : Config) (t : DBTableDef) : Bool :=
  (t.keyColumn cfg).isSome

/-- `DBTable.primary_key`: the first column with a PRIMARY KEY constraint
whose data type is not date. -/
def DBTableDef.primaryKey (t : DBTableDef) : Option DBColumn :=
  t.columns.find? (fun c => c.isPrimaryKey && c.dataType != "date")

/-- `DBTable.foreign_keys_columns`. -/
def DBTableDef.foreignKeysColumns (t : DBTableDef) : List DBColumn :=
  t.columns.filter DBColumn.isForeignKey

/-- `DBTable.self_fk_columns`. -/
def DBTableDef.selfFkColumns (t : DBTableDef) : List DBColumn :=
  t.columns.filter DBColumn.isSelfFk

/-- `DBTable.not_self_fk_columns`. -/
def DBTableDef.notSelfFkColumns (t : DBTableDef) : List DBColumn :=
  t.columns.filter (fun c => c.isForeignKey && !c.isSelfFk)

/-- `DBTable.unique_fk_columns`. -/
def DBTableDef.uniqueFkColumns (t : DBTableDef) : List DBColumn :=
  t.notSelfFkColumns.filter (fun c => c.isForeignKey && c.isUnique)

/-- Whether the table referenced by a foreign-key column carries the key
column (`column.constraint_table.with_key_column`). -/
def referencedWithKeyColumn (cfg : Config) (schema : Schema) (c : DBColumn) : Bool :=
  match c.constraintTable with
  | none => false
  | some n =>
    match lookupTable schema n with
    | none => false
    | some ft => ft.withKeyColumn cfg

/-- `DBTable.fk_columns_with_key_column`. -/
def fkColumnsWithKeyColumn (cfg : Config) (schema : Schema) (t : DBTableDef) : List DBColumn :=
  t.notSelfFkColumns.filter (referencedWithKeyColumn cfg schema)

/-- `DBTable.unique_fk_columns_with_key_column`: the source forms
`set(unique_fk_columns).intersection(fk_columns_with_key_column)`; the
iteration order of that Python set is unspecified, so we fix the order of
`unique_fk_columns` (the claims below never depend on the internal order of
this bucket). -/
def uniqueFkColumnsWithKeyColumn (cfg : Config) (schema : Schema) (t : DBTableDef) :
    List DBColumn :=
  t.uniqueFkColumns.filter (fun c => (fkColumnsWithKeyColumn cfg schema t).contains c)

/-- `DBTable.fk_columns_tables_with_fk_columns_with_key_column`: appends
the column once per qualifying foreign key of the referenced table, as the
nested loops of the source do. -/
def fkColumnsTablesWithFkColumnsWithKeyColumn (cfg : Config) (schema : Schema)
    (t : DBTableDef) : List DBColumn :=
  t.notSelfFkColumns.flatMap (fun c =>
    match c.constraintTable with
    | none => []
    | some n =>
      match lookupTable schema n with
      | none => []
      | some ft =>
        ft.notSelfFkColumns.filterMap (fun cc =>
          if referencedWithKeyColumn cfg schema cc then some c else none))

/-- `DBTable.unique_fk_columns_tables_with_fk_columns_with_key_column`. -/
def uniqueFkColumnsTablesWithFkColumnsWithKeyColumn (cfg : Config) (schema : Schema)
    (t : DBTableDef) : List DBColumn :=
  t.uniqueFkColumns.flatMap (fun c =>
    match c.constraintTable with
    | none => []
    | some n =>
      match lookupTable schema n with
      | none => []
      | some ft =>
        ft.notSelfFkColumns.filterMap (fun cc =>
          if referencedWithKeyColumn cfg schema cc then some c else none))

/-- `DBTable.highest_priority_fk_columns`, exactly as the source computes it:
the first branch returns the unique-with-key-column bucket; the second
branch fires when either the unique-via-table bucket or the plain
with-key-column bucket is non-empty and concatenates both (in that order);
then the via-table bucket; else all non-self foreign keys. -/
def highestPriorityFkColumns (cfg : Config) (schema : Schema) (t : DBTableDef) :
    List DBColumn :=
  if uniqueFkColumnsWithKeyColumn cfg schema t ≠ [] then
    uniqueFkColumnsWithKeyColumn cfg schema t
  else if uniqueFkColumnsTablesWithFkColumnsWithKeyColumn cfg schema t ≠ [] ∨
      fkColumnsWithKeyColumn cfg schema t ≠ [] then
    (if uniqueFkColumnsTablesWithFkColumnsWithKeyColumn cfg schema t ≠ [] then
      uniqueFkColumnsTablesWithFkColumnsWithKeyColumn cfg schema t
    else []) ++
    (if fkColumnsWithKeyColumn cfg schema t ≠ [] then
      fkColumnsWithKeyColumn cfg schema t
    else [])
  else if fkColumnsTablesWithFkColumnsWithKeyColumn cfg schema t ≠ [] then
    fkColumnsTablesWithFkColumnsWithKeyColumn cfg schema t
  else
    t.notSelfFkColumns

/-- The bucket selection exactly as claim C3 words it: the first non-empty
bucket in the order (1) unique with key column, (2) with key column,
(3) unique via table, (4) via table, else all non-self foreign keys. -/
def claimOrderHighestPriorityFkColumns (cfg : Config) (schema : Schema) (t : DBTableDef) :
    List DBColumn :=
  if uniqueFkColumnsWithKeyColumn cfg schema t ≠ [] then
    uniqueFkColumnsWithKeyColumn cfg schema t
  else if fkColumnsWithKeyColumn cfg schema t ≠ [] then
    fkColumnsWithKeyColumn cfg schema t
  else if uniqueFkColumnsTablesWithFkColumnsWithKeyColumn cfg schema t ≠ [] then
    uniqueFkColumnsTablesWithFkColumnsWithKeyColumn cfg schema t
  else if fkColumnsTablesWithFkColumnsWithKeyColumn cfg schema t ≠ [] then
    fkColumnsTablesWithFkColumnsWithKeyColumn cfg schema t
  else
    t.notSelfFkColumns

/-- The amended description of the code behaviour: bucket (1) if non-empty;
otherwise, if bucket (3) or bucket (2) is non-empty, the concatenation of
bucket (3) followed by bucket (2); otherwise bucket (4) if non-empty;
otherwise all non-self foreign-key columns. -/
def amendedHighestPriorityFkColumns (cfg : Config) (schema : Schema) (t : DBTableDef) :
    List DBColumn :=
  if uniqueFkColumnsWithKeyColumn cfg schema t ≠ [] then
    uniqueFkColumnsWithKeyColumn cfg schema t
  else if uniqueFkColumnsTablesWithFkColumnsWithKeyColumn cfg schema t ≠ [] ∨
      fkColumnsWithKeyColumn cfg schema t ≠ [] then
    uniqueFkColumnsTablesWithFkColumnsWithKeyColumn cfg schema t ++
      fkColumnsWithKeyColumn cfg schema t
  else if fkColumnsTablesWithFkColumnsWithKeyColumn cfg schema t ≠ [] then
    fkColumnsTablesWithFkColumnsWithKeyColumn cfg schema t
  else
    t.notSelfFkColumns

/-! ### `is_full_prepared` (db_entities.py, lines 599-614)

`DBTable.inaccuracy_count = 100`; the property is truthy precisely when
`len(need_transfer_pks) >= full_count - inaccuracy_count`, computed over
Python integers (so the right-hand side may be negative). -/

/-- `DBTable.inaccuracy_count`. -/
def inaccuracyCount : Nat := 100

/-- `DBTable.is_full_prepared` as a function of the size of
`need_transfer_pks` and of `full_count`. -/
def isFullPrepared (needCount : Nat) (fullCount : Nat) : Bool :=
  decide ((needCount : Int) ≥ (fullCount : Int) - (inaccuracyCount : Int))

/-! ### Concrete schema for the C3 counterexample -/

/-- Configuration used by the concrete counterexample schemas. -/
def cexCfg : Config :=
  { keyTableName := "kt"
    keyColumnNames := ["tenant_id"]
    excludedTables := []
    fullTransferTables := []
    genericTables := [] }

/-- Key-column-bearing table `k1` (carries `tenant_id`). -/
def tblK1 : DBTableDef :=
  { name := "k1"
    columns :=
      [ { name := "id", tableName := "k1", dataType := "integer",
          constraintTable := some "k1", constraintTypes := ["PRIMARY KEY"] },
        { name := "tenant_id", tableName := "k1", dataType := "integer",
          constraintTable := none, constraintTypes := [] } ] }

/-- Key-column-bearing table `k2`. -/
def tblK2 : DBTableDef :=
  { name := "k2"
    columns :=
      [ { name := "id", tableName := "k2", dataType := "integer",
          constraintTable := some "k2", constraintTypes := ["PRIMARY KEY"] },
        { name := "tenant_id", tableName := "k2", dataType := "integer",
          constraintTable := none, constraintTypes := [] } ] }

/-- Table `m`: no key column, but a foreign key into the key-column table
`k2`. -/
def tblM : DBTableDef :=
  { name := "m"
    columns :=
      [ { name := "id", tableName := "m", dataType := "integer",
          constraintTable := some "m", constraintTypes := ["PRIMARY KEY"] },
        { name := "k2_id", tableName := "m", dataType := "integer",
          constraintTable := some "k2", constraintTypes := ["FOREIGN KEY"] } ] }

/-- Table `t0` whose bucket (2) (`fk_columns_with_key_column`, via `c1`) and
bucket (3) (`unique_fk_columns_tables_with_fk_columns_with_key_column`, via
`c2`) are both non-empty while bucket (1) is empty. -/
def tblT0 : DBTableDef :=
  { name := "t0"
    columns :=
      [ { name := "id", tableName := "t0", dataType := "integer",
          constraintTable := some "t0", constraintTypes := ["PRIMARY KEY"] },
        { name := "c1", tableName := "t0", dataType := "integer",
          constraintTable := some "k1", constraintTypes := ["FOREIGN KEY"] },
        { name := "c2", tableName := "t0", dataType := "integer",
          constraintTable := some "m", constraintTypes := ["FOREIGN KEY", "UNIQUE"] } ] }

/-- The schema of the C3 counterexample. -/
def cexSchemaC3 : Schema := [tblK1, tblK2, tblM, tblT0]

/-! ### Theorems for C3 and C8 -/

/-- C3, counterexample: on the schema `cexSchemaC3` the bucket
`fk_columns_with_key_column` of `t0` is the non-empty bucket (2) while the
code returns bucket (3) concatenated with bucket (2), so the code output is
not the first non-empty bucket in the claimed order. -/
theorem c3_counterexample :
    highestPriorityFkColumns cexCfg cexSchemaC3 tblT0 ≠
      claimOrderHighestPriorityFkColumns cexCfg cexSchemaC3 tblT0 := by
  decide

/-- C3, amended: `highest_priority_fk_columns` equals bucket (1) when it is
non-empty; otherwise, when bucket (3) or bucket (2) is non-empty, the
concatenation of bucket (3) followed by bucket (2); otherwise bucket (4)
when non-empty; otherwise all non-self foreign-key columns. -/
theorem c3_highest_priority_fk_columns (cfg : Config) (schema : Schema) (t : DBTableDef) :
    highestPriorityFkColumns cfg schema t =
      amendedHighestPriorityFkColumns cfg schema t := by
  unfold highestPriorityFkColumns amendedHighestPriorityFkColumns
  by_cases h1 : uniqueFkColumnsWithKeyColumn cfg schema t ≠ []
  · simp [h1]
  · by_cases h3 : uniqueFkColumnsTablesWithFkColumnsWithKeyColumn cfg schema t ≠ []
    · simp [h1, h3]
    · by_cases h2 : fkColumnsWithKeyColumn cfg schema t ≠ []
      · simp [h1, h2, h3, not_not.mp h3]
      · simp [h1, h2, h3]

/-- C8, counterexample: with `full_count = 0` and an empty transfer set the
source property is truthy (`0 >= 0 - 100`), contradicting the claim that a
table whose `full_count` is 0 is treated as not full-prepared. -/
theorem c8_counterexample : isFullPrepared 0 0 = true := by decide

/-- C8, amended: `is_full_prepared` is truthy exactly when the size of
`need_transfer_pks` is at least `full_count` minus the fixed slack 100
(over the integers), and in particular a table whose `full_count` is 0 is
always treated as full-prepared. -/
theorem c8_is_full_prepared (needCount fullCount : Nat) :
    (isFullPrepared needCount fullCount = true ↔
      (needCount : Int) ≥ (fullCount : Int) - (inaccuracyCount : Int)) ∧
    (fullCount = 0 → isFullPrepared needCount fullCount = true) := by
  constructor
  · simp [isFullPrepared]
  · intro h
    subst h
    simp [isFullPrepared, inaccuracyCount]
    omega

/-- Witness for `c8_is_full_prepared` at `needCount = 0`, `fullCount = 0`. -/
theorem c8_is_full_prepared_witness : isFullPrepared 0 0 = true :=
  (c8_is_full_prepared 0 0).2 rfl

/-! ### Query runner: fetch with swallowed errors (collectors.py, lines 84-112)

`_get_table_column_values_part` executes one SQL string (if non-empty),
keeps the first column of every returned row dropping NULLs, and extends an
accumulator list.  `PostgresSyntaxError` and `UndefinedColumnError` are
caught, logged, and replaced by the empty row list; any other error
propagates.  Rows are abstracted to their first column (the source only
reads `record[0]`). -/

inductive PgError where
  | syntaxError
  | undefinedColumn
  | other (msg : String)
  deriving DecidableEq, Repr

/-- The two error classes named in the except-clause of the source. -/
def PgError.isSwallowed : PgError → Bool
  | .syntaxError => true
  | .undefinedColumn => true
  | .other _ => false

/-- `_get_table_column_values_part`, over an abstract fetch function: the
parameter `fetch` stands for `connection.fetch` of the source database and
returns the first column of every row of the result set. -/
def getTableColumnValuesPart (fetch : String → Except PgError (List (Option Int)))
    (sql : String) (acc : List Int) : Except PgError (List Int) :=
  if sql = "" then .ok acc
  else
    match fetch sql with
    | .ok rows => .ok (acc ++ rows.filterMap id)
    | .error e => if e.isSwallowed then .ok acc else .error e

/-- C5: for every executed fetch, the result extends the accumulator by the
first column of every returned row with NULLs removed; a syntax or
undefined-column error is degraded to an empty contribution and never
propagated (exactly those two error classes are swallowed); any other error
propagates to the caller. -/
theorem c5_fetch_error_handling (fetch : String → Except PgError (List (Option Int)))
    (sql : String) (acc : List Int) (hsql : sql ≠ "") :
    (∀ rows, fetch sql = .ok rows →
      getTableColumnValuesPart fetch sql acc = .ok (acc ++ rows.filterMap id)) ∧
    (∀ e, fetch sql = .error e → e.isSwallowed = true →
      getTableColumnValuesPart fetch sql acc = .ok acc) ∧
    (∀ e, fetch sql = .error e → e.isSwallowed = false →
      getTableColumnValuesPart fetch sql acc = .error e) ∧
    (∀ e : PgError, e.isSwallowed = true ↔ (e = .syntaxError ∨ e = .undefinedColumn)) := by
  refine ⟨?_, ?_, ?_, ?_⟩
  · intro rows h
    simp [getTableColumnValuesPart, hsql, h]
  · intro e h hsw
    simp [getTableColumnValuesPart, hsql, h, hsw]
  · intro e h hsw
    simp [getTableColumnValuesPart, hsql, h, hsw]
  · intro e
    cases e <;> simp [PgError.isSwallowed]

/-- Witness for `c5_fetch_error_handling`: a concrete fetch raising a
syntax error is swallowed into an empty contribution. -/
theorem c5_fetch_error_handling_witness :
    getTableColumnValuesPart (fun _ => .error .syntaxError) "SELECT 1;" [7] = .ok [7] :=
  (c5_fetch_error_handling (fun _ => .error .syntaxError) "SELECT 1;" [7]
    (by decide)).2.1 .syntaxError rfl rfl

/-! ### Query runner: process-wide query deduplication (collectors.py, 59-62, 151-164)

`BaseCollector.QUERY_HASHES` is a single class attribute; the membership
test `self.__class__.QUERY_HASHES` and the mutation
`BaseCollector.QUERY_HASHES.add(...)` resolve to the same set because no
subclass shadows the attribute.  The model therefore threads one hash set
through every call of `_get_table_column_values`, regardless of which
collector issues it.  Within a call, each SQL string of the built list is
executed only if its hash is absent, and the hash is inserted before
execution. -/

/-- The dedup loop of one `_get_table_column_values` call: returns the
queries actually executed (in order) and the updated hash set. -/
def runQueryList (hash : String → Int) : List String → List Int → List String × List Int
  | [], hs => ([], hs)
  | q :: rest, hs =>
    if hash q ∈ hs then runQueryList hash rest hs
    else
      (q :: (runQueryList hash rest (hash q :: hs)).1,
        (runQueryList hash rest (hash q :: hs)).2)

/-- A whole process: every call of every collector, in execution order. -/
def runProcess (hash : String → Int) : List (List String) → List Int → List String × List Int
  | [], hs => ([], hs)
  | call :: calls, hs =>
    ((runQueryList hash call hs).1 ++
        (runProcess hash calls (runQueryList hash call hs).2).1,
      (runProcess hash calls (runQueryList hash call hs).2).2)

/-- The queries executed by a whole process starting from the empty
process-wide hash set. -/
def executedQueries (hash : String → Int) (calls : List (List String)) : List String :=
  (runProcess hash calls []).1

theorem runQueryList_spec (hash : String → Int) :
    ∀ (l : List String) (hs : List Int),
      (∀ h ∈ hs, h ∈ (runQueryList hash l hs).2) ∧
      (∀ q ∈ (runQueryList hash l hs).1, hash q ∈ (runQueryList hash l hs).2) ∧
      ((runQueryList hash l hs).1.map hash).Nodup ∧
      (∀ q ∈ (runQueryList hash l hs).1, hash q ∉ hs) := by
  intro l
  induction l with
  | nil => intro hs; simp [runQueryList]
  | cons q rest ih =>
    intro hs
    by_cases hq : hash q ∈ hs
    · have h := ih hs
      simpa [runQueryList, hq] using h
    · have h := ih (hash q :: hs)
      rw [show runQueryList hash (q :: rest) hs =
        (q :: (runQueryList hash rest (hash q :: hs)).1,
          (runQueryList hash rest (hash q :: hs)).2) by
        simp [runQueryList, hq]]
      refine ⟨?_, ?_, ?_, ?_⟩
      · intro x hx
        exact h.1 x (by simp [hx])
      · intro x hx
        rcases List.mem_cons.mp hx with hx | hx
        · subst hx
          exact h.1 (hash x) (by simp)
        · exact h.2.1 x hx
      · rw [List.map_cons, List.nodup_cons]
        refine ⟨?_, h.2.2.1⟩
        intro hmem
        rcases List.mem_map.mp hmem with ⟨x, hx, hhx⟩
        exact h.2.2.2 x hx (by simp [hhx])
      · intro x hx
        rcases List.mem_cons.mp hx with hx | hx
        · subst hx; exact hq
        · intro hmem
          exact h.2.2.2 x hx (by simp [hmem])

theorem runProcess_spec (hash : String → Int) :
    ∀ (calls : List (List String)) (hs : List Int),
      (∀ h ∈ hs, h ∈ (runProcess hash calls hs).2) ∧
      (∀ q ∈ (runProcess hash calls hs).1, hash q ∈ (runProcess hash calls hs).2) ∧
      ((runProcess hash calls hs).1.map hash).Nodup ∧
      (∀ q ∈ (runProcess hash calls hs).1, hash q ∉ hs) := by
  intro calls
  induction calls with
  | nil => intro hs; simp [runProcess]
  | cons call calls ih =>
    intro hs
    have h1 := runQueryList_spec hash call hs
    have h2 := ih (runQueryList hash call hs).2
    rw [show runProcess hash (call :: calls) hs =
      ((runQueryList hash call hs).1 ++
          (runProcess hash calls (runQueryList hash call hs).2).1,
        (runProcess hash calls (runQueryList hash call hs).2).2) from rfl]
    refine ⟨?_, ?_, ?_, ?_⟩
    · intro x hx
      exact h2.1 x (h1.1 x hx)
    · intro q hq
      rcases List.mem_append.mp hq with hq | hq
      · exact h2.1 _ (h1.2.1 q hq)
      · exact h2.2.1 q hq
    · rw [List.map_append]
      refine List.Nodup.append h1.2.2.1 h2.2.2.1 ?_
      intro x hx1 hx2
      rcases List.mem_map.mp hx1 with ⟨q1, hq1, e1⟩
      rcases List.mem_map.mp hx2 with ⟨q2, hq2, e2⟩
      have hin : hash q1 ∈ (runQueryList hash call hs).2 := h1.2.1 q1 hq1
      exact h2.2.2.2 q2 hq2 (by rw [e2, ← e1]; exact hin)
    · intro q hq
      rcases List.mem_append.mp hq with hq | hq
      · exact h1.2.2.2 q hq
      · intro hmem
        exact h2.2.2.2 q hq (h1.1 _ hmem)

/-- C7: for every hash function and every sequence of collector calls (all
collectors share the one process-wide hash set), the hashes of the executed
queries are pairwise distinct; in particular every SQL query string is
executed at most once per process. -/
theorem c7_query_executed_at_most_once (hash : String → Int)
    (calls : List (List String)) :
    ((executedQueries hash calls).map hash).Nodup ∧
    ∀ q : String, (executedQueries hash calls).count q ≤ 1 := by
  have h := runProcess_spec hash calls []
  refine ⟨h.2.2.1, ?_⟩
  intro q
  have hnd : (executedQueries hash calls).Nodup :=
    List.Nodup.of_map hash h.2.2.1
  exact List.nodup_iff_count_le_one.mp hnd q

/-! ### `topological_sort` (helpers.py, lines 110-141)

Kahn's algorithm over insertion-ordered dictionaries.  `num_heads` counts
incoming edges per node (a Python `defaultdict(int)`, so decrementing an
absent key would create it with value `-1`); `tails` maps a node to the
ordered list of its outgoing-edge targets; `heads` lists the edge sources in
first-seen order.  The work list `ordered` is iterated while it is being
appended to; the model realises this with a queue whose processed prefix is
the accumulated output.  Dictionaries are modelled as insertion-ordered
association lists. -/

/-- Association-list lookup (first match). -/
def alGet {α β : Type} [DecidableEq α] : List (α × β) → α → Option β
  | [], _ => none
  | p :: rest, a => if p.1 = a then some p.2 else alGet rest a

/-- Lookup with Python `defaultdict(int)` default 0. -/
def alGetD {α : Type} [DecidableEq α] (nh : List (α × Int)) (a : α) : Int :=
  (alGet nh a).getD 0

/-- `num_heads[t] += 1`. -/
def nhInc {α : Type} [DecidableEq α] : List (α × Int) → α → List (α × Int)
  | [], t => [(t, 1)]
  | p :: rest, t => if p.1 = t then (p.1, p.2 + 1) :: rest else p :: nhInc rest t

/-- `num_heads[t] -= 1` (creates the key with value `-1` when absent, as a
`defaultdict(int)` does). -/
def nhDec {α : Type} [DecidableEq α] : List (α × Int) → α → List (α × Int)
  | [], t => [(t, -1)]
  | p :: rest, t => if p.1 = t then (p.1, p.2 - 1) :: rest else p :: nhDec rest t

/-- `tails[h].append(t)` for a present key. -/
def tlApp {α : Type} [DecidableEq α] : List (α × List α) → α → α → List (α × List α)
  | [], h, t => [(h, [t])]
  | p :: rest, h, t =>
    if p.1 = h then (p.1, p.2 ++ [t]) :: rest else p :: tlApp rest h t

/-- The state built by the first loop of `topological_sort`. -/
structure KahnState (α : Type) where
  numHeads : List (α × Int)
  tails : List (α × List α)
  heads : List α

/-- One iteration of the first loop of `topological_sort`. -/
def kahnSetupStep {α : Type} [DecidableEq α] (s : KahnState α) (p : α × α) : KahnState α :=
  if (alGet s.tails p.1).isSome then
    ⟨nhInc s.numHeads p.2, tlApp s.tails p.1 p.2, s.heads⟩
  else
    ⟨nhInc s.numHeads p.2, s.tails ++ [(p.1, [p.2])], s.heads ++ [p.1]⟩

/-- The first loop of `topological_sort`. -/
def kahnSetup {α : Type} [DecidableEq α] (pairs : List (α × α)) : KahnState α :=
  pairs.foldl kahnSetupStep ⟨[], [], []⟩

/-- `tails[h]` in the second loop (reading a `defaultdict(list)` yields `[]`
for an absent key). -/
def tailsOf {α : Type} [DecidableEq α] (tails : List (α × List α)) (h : α) : List α :=
  (alGet tails h).getD []

/-- The inner loop over `tails[h]`: decrement every target and collect, in
order, the targets whose count reaches exactly 0. -/
def decTails {α : Type} [DecidableEq α] : List (α × Int) → List α → List (α × Int) × List α
  | nh, [] => (nh, [])
  | nh, t :: ts =>
    if alGet (nhDec nh t) t = some 0 then
      ((decTails (nhDec nh t) ts).1, t :: (decTails (nhDec nh t) ts).2)
    else
      decTails (nhDec nh t) ts

/-- Termination measure: total positive in-degree mass. -/
def nhWeight {α : Type} (nh : List (α × Int)) : Nat :=
  (nh.map (fun p => p.2.toNat)).sum

theorem alGet_nhDec {α : Type} [DecidableEq α] (nh : List (α × Int)) (t x : α) :
    alGet (nhDec nh t) x =
      if x = t then some (alGetD nh t - 1) else alGet nh x := by
  induction nh with
  | nil =>
    by_cases hx : x = t
    · subst hx
      simp [nhDec, alGet, alGetD]
    · have hx2 : ¬ t = x := fun h => hx h.symm
      simp [nhDec, alGet, alGetD, hx, hx2]
  | cons p rest ih =>
    by_cases hp : p.1 = t
    · by_cases hx : x = t
      · subst hx
        simp [nhDec, hp, alGet, alGetD]
      · have hpx : ¬ p.1 = x := fun h => hx ((h.symm.trans hp).symm ▸ rfl)
        have hx2 : ¬ t = x := fun h => hx h.symm
        simp [nhDec, hp, alGet, hx, hpx, hx2]
    · by_cases hpx : p.1 = x
      · have hx : ¬ x = t := fun h => hp (hpx.trans h)
        simp [nhDec, hp, alGet, hpx, hx]
      · have hd : alGetD (p :: rest) t = alGetD rest t := by
          simp [alGetD, alGet, hp]
        simp [nhDec, hp, alGet, hpx, ih, hd]

theorem alGet_nhInc {α : Type} [DecidableEq α] (nh : List (α × Int)) (t x : α) :
    alGet (nhInc nh t) x =
      if x = t then some (alGetD nh t + 1) else alGet nh x := by
  induction nh with
  | nil =>
    by_cases hx : x = t
    · subst hx
      simp [nhInc, alGet, alGetD]
    · have hx2 : ¬ t = x := fun h => hx h.symm
      simp [nhInc, alGet, alGetD, hx, hx2]
  | cons p rest ih =>
    by_cases hp : p.1 = t
    · by_cases hx : x = t
      · subst hx
        simp [nhInc, hp, alGet, alGetD]
      · have hpx : ¬ p.1 = x := fun h => hx ((h.symm.trans hp).symm ▸ rfl)
        have hx2 : ¬ t = x := fun h => hx h.symm
        simp [nhInc, hp, alGet, hx, hpx, hx2]
    · by_cases hpx : p.1 = x
      · have hx : ¬ x = t := fun h => hp (hpx.trans h)
        simp [nhInc, hp, alGet, hpx, hx]
      · have hd : alGetD (p :: rest) t = alGetD rest t := by
          simp [alGetD, alGet, hp]
        simp [nhInc, hp, alGet, hpx, ih, hd]

theorem alGet_tlApp {α : Type} [DecidableEq α] (tl : List (α × List α)) (h t x : α) :
    alGet (tlApp tl h t) x =
      if x = h then some ((alGet tl h).getD [] ++ [t]) else alGet tl x := by
  induction tl with
  | nil =>
    by_cases hx : x = h
    · subst hx
      simp [tlApp, alGet]
    · have hx2 : ¬ h = x := fun hh => hx hh.symm
      simp [tlApp, alGet, hx, hx2]
  | cons p rest ih =>
    by_cases hp : p.1 = h
    · by_cases hx : x = h
      · subst hx
        simp [tlApp, hp, alGet]
      · have hpx : ¬ p.1 = x := fun hh => hx ((hh.symm.trans hp).symm ▸ rfl)
        have hx2 : ¬ h = x := fun hh => hx hh.symm
        simp [tlApp, hp, alGet, hx, hpx, hx2]
    · by_cases hpx : p.1 = x
      · have hx : ¬ x = h := fun hh => hp (hpx.trans hh)
        simp [tlApp, hp, alGet, hpx, hx]
      · have hd : alGet (p :: rest) h = alGet rest h := by
          simp [alGet, hp]
        simp [tlApp, hp, alGet, hpx, ih, hd]

theorem alGet_append {α β : Type} [DecidableEq α] (l₁ l₂ : List (α × β)) (x : α) :
    alGet (l₁ ++ l₂) x = ((alGet l₁ x).map some).getD (alGet l₂ x) := by
  induction l₁ with
  | nil => simp [alGet]
  | cons p rest ih =>
    by_cases hpx : p.1 = x
    · simp [alGet, hpx]
    · simp [alGet, hpx, ih]

/-- Keys of an association list. -/
def alKeys {α β : Type} (l : List (α × β)) : List α := l.map (·.1)

theorem alKeys_nhDec {α : Type} [DecidableEq α] (nh : List (α × Int)) (t : α) :
    alKeys (nhDec nh t) = if (alGet nh t).isSome then alKeys nh else alKeys nh ++ [t] := by
  induction nh with
  | nil => simp [nhDec, alKeys, alGet]
  | cons p rest ih =>
    by_cases hp : p.1 = t
    · simp [nhDec, hp, alKeys, alGet]
    · by_cases hs : (alGet rest t).isSome
      · simp only [alKeys] at ih
        simp [nhDec, hp, alKeys, alGet, hs, ih]
      · simp only [alKeys] at ih
        simp [nhDec, hp, alKeys, alGet, hs, ih]

theorem alKeys_nhInc {α : Type} [DecidableEq α] (nh : List (α × Int)) (t : α) :
    alKeys (nhInc nh t) = if (alGet nh t).isSome then alKeys nh else alKeys nh ++ [t] := by
  induction nh with
  | nil => simp [nhInc, alKeys, alGet]
  | cons p rest ih =>
    by_cases hp : p.1 = t
    · simp [nhInc, hp, alKeys, alGet]
    · by_cases hs : (alGet rest t).isSome
      · simp only [alKeys] at ih
        simp [nhInc, hp, alKeys, alGet, hs, ih]
      · simp only [alKeys] at ih
        simp [nhInc, hp, alKeys, alGet, hs, ih]

theorem alGet_isSome_iff_mem_keys {α β : Type} [DecidableEq α] (l : List (α × β)) (x : α) :
    (alGet l x).isSome ↔ x ∈ alKeys l := by
  induction l with
  | nil => simp [alGet, alKeys]
  | cons p rest ih =>
    by_cases hpx : p.1 = x
    · simp [alGet, alKeys, hpx]
    · rw [show alKeys (p :: rest) = p.1 :: alKeys rest from rfl]
      simp only [alGet, hpx, if_false, List.mem_cons]
      rw [ih]
      constructor
      · intro h
        exact Or.inr h
      · rintro (h | h)
        · exact absurd h.symm hpx
        · exact h

theorem nhWeight_nhDec_le {α : Type} [DecidableEq α] (nh : List (α × Int)) (t : α) :
    nhWeight (nhDec nh t) ≤ nhWeight nh := by
  induction nh with
  | nil => simp [nhDec, nhWeight]
  | cons p rest ih =>
    by_cases hp : p.1 = t
    · simp only [nhDec, hp, if_true, nhWeight, List.map_cons, List.sum_cons]
      have : (p.2 - 1).toNat ≤ p.2.toNat := by omega
      simp only [nhWeight] at *
      omega
    · simp only [nhDec, hp, if_false, nhWeight, List.map_cons, List.sum_cons]
      simp only [nhWeight] at ih
      omega

theorem nhWeight_nhDec_zero {α : Type} [DecidableEq α] (nh : List (α × Int)) (t : α)
    (h : alGet (nhDec nh t) t = some 0) :
    nhWeight (nhDec nh t) + 1 ≤ nhWeight nh := by
  induction nh with
  | nil =>
    exfalso
    simp [nhDec, alGet] at h
  | cons p rest ih =>
    by_cases hp : p.1 = t
    · simp only [nhDec, hp, if_true] at h ⊢
      simp only [alGet, hp, if_true] at h
      have hv : p.2 - 1 = 0 := by
        have := Option.some.inj h
        omega
      simp only [nhWeight, List.map_cons, List.sum_cons]
      omega
    · simp only [nhDec, hp, if_false] at h ⊢
      simp only [alGet, hp, if_false] at h
      have := ih h
      simp only [nhWeight, List.map_cons, List.sum_cons]
      simp only [nhWeight] at this
      omega

theorem decTails_weight {α : Type} [DecidableEq α] (ts : List α) :
    ∀ nh : List (α × Int),
      (decTails nh ts).2.length + nhWeight (decTails nh ts).1 ≤ nhWeight nh := by
  induction ts with
  | nil => intro nh; simp [decTails]
  | cons t ts ih =>
    intro nh
    by_cases hz : alGet (nhDec nh t) t = some 0
    · have h1 := ih (nhDec nh t)
      have h2 := nhWeight_nhDec_zero nh t hz
      simp only [decTails, hz, if_true, List.length_cons]
      omega
    · have h1 := ih (nhDec nh t)
      have h2 := nhWeight_nhDec_le nh t
      simp only [decTails, hz, if_false]
      omega

/-- The second loop of `topological_sort`, structurally recursive on a fuel
that the wrapper instantiates with the termination measure
`queue.length + nhWeight nh` (each step strictly decreases the measure, by
`decTails_weight`, so that fuel always suffices). -/
def kahnLoopF {α : Type} [DecidableEq α] (tails : List (α × List α)) :
    Nat → List α → List α → List (α × Int) → List α × List (α × Int)
  | _, [], done, nh => (done, nh)
  | 0, _ :: _, done, nh => (done, nh)
  | fuel + 1, h :: queue, done, nh =>
    kahnLoopF tails fuel (queue ++ (decTails nh (tailsOf tails h)).2)
      (done ++ [h]) (decTails nh (tailsOf tails h)).1

/-- The second loop of `topological_sort`: `ordered` is iterated while being
appended to, which is realised as a queue; the output is the pop order. -/
def kahnLoop {α : Type} [DecidableEq α] (tails : List (α × List α))
    (queue done : List α) (nh : List (α × Int)) : List α × List (α × Int) :=
  kahnLoopF tails (queue.length + nhWeight nh) queue done nh

theorem kahnLoopF_nil {α : Type} [DecidableEq α] (tails : List (α × List α))
    (n : Nat) (done : List α) (nh : List (α × Int)) :
    kahnLoopF tails n [] done nh = (done, nh) := by
  cases n <;> rfl

theorem kahnLoopF_congr {α : Type} [DecidableEq α] (tails : List (α × List α)) :
    ∀ (n m : Nat) (queue done : List α) (nh : List (α × Int)),
      queue.length + nhWeight nh ≤ n → queue.length + nhWeight nh ≤ m →
      kahnLoopF tails n queue done nh = kahnLoopF tails m queue done nh := by
  intro n
  induction n with
  | zero =>
    intro m queue done nh hn hm
    match queue with
    | [] => rw [kahnLoopF_nil, kahnLoopF_nil]
    | h :: queue => simp at hn
  | succ n ih =>
    intro m queue done nh hn hm
    match queue with
    | [] => rw [kahnLoopF_nil, kahnLoopF_nil]
    | h :: queue =>
      match m with
      | 0 => simp at hm
      | m + 1 =>
        show kahnLoopF tails n _ _ _ = kahnLoopF tails m _ _ _
        have hw := decTails_weight (tailsOf tails h) nh
        apply ih
        · simp only [List.length_append]
          simp only [List.length_cons] at hn
          omega
        · simp only [List.length_append]
          simp only [List.length_cons] at hm
          omega

theorem kahnLoop_cons {α : Type} [DecidableEq α] (tails : List (α × List α))
    (h : α) (queue done : List α) (nh : List (α × Int)) :
    kahnLoop tails (h :: queue) done nh =
      kahnLoop tails (queue ++ (decTails nh (tailsOf tails h)).2) (done ++ [h])
        (decTails nh (tailsOf tails h)).1 := by
  show kahnLoopF tails ((h :: queue).length + nhWeight nh) (h :: queue) done nh = _
  rw [show (h :: queue).length + nhWeight nh = (queue.length + nhWeight nh) + 1 from by
    simp only [List.length_cons]
    omega]
  show kahnLoopF tails (queue.length + nhWeight nh) _ _ _ = _
  have hw := decTails_weight (tailsOf tails h) nh
  apply kahnLoopF_congr
  · simp only [List.length_append]
    omega
  · exact le_refl _

/-- The result record of `topological_sort` (`Results(sorted, cyclic)`). -/
structure TopoResult (α : Type) where
  sorted : List α
  cyclic : List α
  deriving DecidableEq, Repr

/-- The work-list run of `topological_sort`: final `ordered` list and final
`num_heads` dictionary. -/
def kahnFinal {α : Type} [DecidableEq α] (pairs : List (α × α)) :
    List α × List (α × Int) :=
  kahnLoop (kahnSetup pairs).tails
    ((kahnSetup pairs).heads.filter (fun h => !(alGet (kahnSetup pairs).numHeads h).isSome))
    [] (kahnSetup pairs).numHeads

/-- `topological_sort` of helpers.py: Kahn's algorithm; `sorted` is the
acyclic output in pop order, `cyclic` lists the keys of `num_heads` whose
residual count is truthy (non-zero), in dictionary insertion order. -/
def topological_sort {α : Type} [DecidableEq α] (pairs : List (α × α)) : TopoResult α :=
  ⟨(kahnFinal pairs).1, ((kahnFinal pairs).2.filter (fun p => p.2 ≠ 0)).map (·.1)⟩

/-! ### Correctness of `topological_sort` (claim C10)

The claim-side vocabulary: the nodes of the induced graph, its in-degrees,
acyclicity via a topological ranking (the standard characterisation of a
finite DAG), and the appears-before relation on the output list. -/

/-- All nodes mentioned by the dependency pairs. -/
def nodesOf {α : Type} (pairs : List (α × α)) : List α :=
  pairs.flatMap (fun p => [p.1, p.2])

/-- In-degree of `t` (with multiplicity of duplicated pairs). -/
def indeg {α : Type} [DecidableEq α] (pairs : List (α × α)) (t : α) : Nat :=
  pairs.countP (fun p => decide (p.2 = t))

/-- Edges into `t` whose source is already in `done`. -/
def doneEdges {α : Type} [DecidableEq α] (pairs : List (α × α)) (done : List α) (t : α) :
    Nat :=
  pairs.countP (fun p => decide (p.2 = t) && decide (p.1 ∈ done))

/-- The targets of the edges leaving `h`, in input order. -/
def tailsTargets {α : Type} [DecidableEq α] (pairs : List (α × α)) (h : α) : List α :=
  pairs.filterMap (fun p => if p.1 = h then some p.2 else none)

/-- The induced graph is acyclic: there is a ranking strictly increasing
along every edge (the standard characterisation of a finite DAG). -/
def Acyclic {α : Type} (pairs : List (α × α)) : Prop :=
  ∃ f : α → Nat, ∀ p ∈ pairs, f p.1 < f p.2

/-- `a` appears strictly before `b` in the list `l`. -/
def appearsBefore {α : Type} (l : List α) (a b : α) : Prop :=
  ∃ i j : Nat, i < j ∧ l.get? i = some a ∧ l.get? j = some b

theorem appearsBefore_append_left {α : Type} {l : List α} {a b : α} (l2 : List α)
    (h : appearsBefore l a b) : appearsBefore (l ++ l2) a b := by
  obtain ⟨i, j, hij, ha, hb⟩ := h
  refine ⟨i, j, hij, ?_, ?_⟩
  · rw [List.get?_append]
    · exact ha
    · exact List.get?_eq_some.mp ha |>.choose
  · rw [List.get?_append]
    · exact hb
    · exact List.get?_eq_some.mp hb |>.choose

theorem appearsBefore_append_new {α : Type} {l : List α} {a : α} (b : α)
    (h : a ∈ l) : appearsBefore (l ++ [b]) a b := by
  obtain ⟨n, hn⟩ := List.get_of_mem h
  refine ⟨n.1, l.length, n.2, ?_, ?_⟩
  · rw [List.get?_append n.2]
    rw [List.get?_eq_get n.2]
    exact congrArg some hn
  · rw [List.get?_append_right (le_refl l.length)]
    simp

theorem countP_and_le {α : Type} (l : List α) (P Q : α → Bool) :
    l.countP (fun x => P x && Q x) ≤ l.countP P := by
  induction l with
  | nil => simp
  | cons x l ih =>
    by_cases hp : P x
    · by_cases hq : Q x
      · simp [List.countP_cons, hp, hq]
        omega
      · simp [List.countP_cons, hp, hq]
        omega
    · simp [List.countP_cons, hp]
      omega

theorem countP_and_eq_forall {α : Type} (l : List α) (P Q : α → Bool)
    (h : l.countP (fun x => P x && Q x) = l.countP P) :
    ∀ x ∈ l, P x = true → Q x = true := by
  induction l with
  | nil => simp
  | cons a l ih =>
    rw [List.countP_cons, List.countP_cons] at h
    by_cases hpa : P a
    · by_cases hqa : Q a
      · have h2 : l.countP (fun x => P x && Q x) = l.countP P := by
          simp only [hpa, hqa, Bool.and_self, if_true] at h
          omega
        intro x hx hp
        rcases List.mem_cons.mp hx with hx1 | hx1
        · subst hx1; exact hqa
        · exact ih h2 x hx1 hp
      · exfalso
        have hle := countP_and_le l P Q
        simp [hpa, hqa] at h
        omega
    · have h2 : l.countP (fun x => P x && Q x) = l.countP P := by
        simp only [hpa, Bool.false_and, if_false] at h
        simpa using h
      intro x hx hp
      rcases List.mem_cons.mp hx with hx1 | hx1
      · subst hx1; exact absurd hp hpa
      · exact ih h2 x hx1 hp

theorem countP_split_or {α : Type} (l : List α) (P Q R : α → Bool)
    (hx : ∀ x ∈ l, ¬(Q x = true ∧ R x = true)) :
    l.countP (fun x => P x && (Q x || R x)) =
      l.countP (fun x => P x && Q x) + l.countP (fun x => P x && R x) := by
  induction l with
  | nil => simp
  | cons a l ih =>
    have ha := hx a (by simp)
    have hrest : ∀ x ∈ l, ¬(Q x = true ∧ R x = true) := fun x hm => hx x (by simp [hm])
    by_cases hp : P a <;> by_cases hq : Q a <;> by_cases hr : R a <;>
      simp [List.countP_cons, hp, hq, hr, ih hrest] <;> first
        | omega
        | exact absurd ⟨hq, hr⟩ ha

theorem count_tailsTargets {α : Type} [DecidableEq α] (pairs : List (α × α)) (h t : α) :
    (tailsTargets pairs h).count t =
      pairs.countP (fun p => decide (p.2 = t) && decide (p.1 = h)) := by
  induction pairs with
  | nil => simp [tailsTargets]
  | cons p pairs ih =>
    by_cases hph : p.1 = h
    · by_cases hpt : p.2 = t
      · simp [tailsTargets, hph, hpt, List.countP_cons, List.count_cons] at *
        omega
      · simp [tailsTargets, hph, hpt, List.countP_cons, List.count_cons] at *
        omega
    · simp [tailsTargets, hph, List.countP_cons, List.count_cons] at *
      omega

theorem mem_tailsTargets {α : Type} [DecidableEq α] {pairs : List (α × α)} {h t : α} :
    t ∈ tailsTargets pairs h ↔ (h, t) ∈ pairs := by
  simp only [tailsTargets, List.mem_filterMap]
  constructor
  · rintro ⟨p, hp, he⟩
    by_cases hph : p.1 = h
    · simp only [hph, if_true, Option.some.injEq] at he
      have : p = (h, t) := by
        cases p
        simp_all
      exact this ▸ hp
    · simp [hph] at he
  · intro hp
    exact ⟨(h, t), hp, by simp⟩

theorem decTails_fst {α : Type} [DecidableEq α] (nh : List (α × Int)) (t : α)
    (ts : List α) :
    (decTails nh (t :: ts)).1 = (decTails (nhDec nh t) ts).1 := by
  by_cases hz : alGet (nhDec nh t) t = some 0 <;> simp [decTails, hz]

theorem decTails_alGet {α : Type} [DecidableEq α] (ts : List α) :
    ∀ nh : List (α × Int), (∀ x ∈ ts, (alGet nh x).isSome) →
      ∀ x, alGet (decTails nh ts).1 x =
        (alGet nh x).map (fun v => v - (ts.count x : Int)) := by
  induction ts with
  | nil =>
    intro nh _ x
    simp only [decTails, List.count_nil]
    cases alGet nh x <;> simp
  | cons t ts ih =>
    intro nh hsome x
    have hsome1 : ∀ y ∈ ts, (alGet (nhDec nh t) y).isSome := by
      intro y hy
      rw [alGet_nhDec]
      by_cases hyt : y = t
      · simp [hyt]
      · simp only [hyt, if_false]
        exact hsome y (by simp [hy])
    have hrec := ih (nhDec nh t) hsome1 x
    rw [decTails_fst, hrec, alGet_nhDec]
    by_cases hxt : x = t
    · subst hxt
      obtain ⟨v, hv⟩ := Option.isSome_iff_exists.mp (hsome x (by simp))
      have hvd : alGetD nh x = v := by simp [alGetD, hv]
      rw [if_pos rfl, hvd, hv]
      simp only [List.count_cons_self, Option.map_some']
      rw [Option.some.injEq]
      push_cast
      ring
    · have hxt2 : ¬ t = x := fun h => hxt h.symm
      have hcnt : (t :: ts).count x = ts.count x := by
        rw [List.count_cons]
        simp [hxt2]
      simp only [hxt, if_false, hcnt]

theorem decTails_newly {α : Type} [DecidableEq α] (ts : List α) :
    ∀ nh : List (α × Int),
      (∀ x ∈ ts, (alGet nh x).isSome ∧ (ts.count x : Int) ≤ alGetD nh x) →
      (∀ x, x ∈ (decTails nh ts).2 ↔
        (x ∈ ts ∧ alGetD nh x = (ts.count x : Int))) ∧
      (decTails nh ts).2.Nodup := by
  induction ts with
  | nil =>
    intro nh _
    simp [decTails]
  | cons t ts ih =>
    intro nh hb
    have hbt := hb t (by simp)
    obtain ⟨v, hv⟩ := Option.isSome_iff_exists.mp hbt.1
    have hvd : alGetD nh t = v := by simp [alGetD, hv]
    have hv1 : (1 : Int) ≤ v := by
      have h2 := hbt.2
      rw [hvd] at h2
      have hc : 1 ≤ (t :: ts).count t := by
        rw [List.count_cons_self]
        omega
      have h3 : ((t :: ts).count t : Int) ≤ v := h2
      omega
    have hget : alGet (nhDec nh t) t = some (v - 1) := by
      rw [alGet_nhDec]
      simp [hvd]
    have hb1 : ∀ x ∈ ts,
        (alGet (nhDec nh t) x).isSome ∧ (ts.count x : Int) ≤ alGetD (nhDec nh t) x := by
      intro x hx
      by_cases hxt : x = t
      · subst hxt
        refine ⟨by simp [hget], ?_⟩
        have h1 : alGetD (nhDec nh x) x = v - 1 := by simp [alGetD, hget]
        have h2 := hbt.2
        rw [hvd] at h2
        have h3 : (x :: ts).count x = ts.count x + 1 := by
          simp [List.count_cons_self]
        rw [h1]
        rw [h3] at h2
        push_cast at h2 ⊢
        omega
      · have hga : alGet (nhDec nh t) x = alGet nh x := by
          rw [alGet_nhDec]
          simp [hxt]
        have hgd : alGetD (nhDec nh t) x = alGetD nh x := by
          simp [alGetD, hga]
        have h2 := hb x (by simp [hx])
        have hxt2 : ¬ t = x := fun h => hxt h.symm
        have h3 : (t :: ts).count x = ts.count x := by
          rw [List.count_cons]
          simp [hxt2]
        refine ⟨by rw [hga]; exact h2.1, ?_⟩
        rw [hgd]
        rw [h3] at h2
        exact h2.2
    obtain ⟨ihm, ihnd⟩ := ih (nhDec nh t) hb1
    have hdgd : alGetD (nhDec nh t) t = v - 1 := by simp [alGetD, hget]
    by_cases hz : alGet (nhDec nh t) t = some 0
    · have hveq : v = 1 := by
        rw [hget] at hz
        have := Option.some.inj hz
        omega
      have hts0 : ts.count t = 0 := by
        by_contra hc
        have hmem : t ∈ ts := by
          have : 0 < ts.count t := Nat.pos_of_ne_zero hc
          exact List.count_pos_iff.mp this
        have := (hb1 t hmem).2
        rw [hdgd, hveq] at this
        omega
      constructor
      · intro x
        have hmem : x ∈ (decTails nh (t :: ts)).2 ↔ (x = t ∨ x ∈ (decTails (nhDec nh t) ts).2) := by
          simp [decTails, hz]
        rw [hmem]
        by_cases hxt : x = t
        · subst hxt
          constructor
          · intro _
            refine ⟨by simp, ?_⟩
            rw [hvd, hveq, List.count_cons_self, hts0]
            simp
          · intro _
            exact Or.inl rfl
        · have hga : alGetD (nhDec nh t) x = alGetD nh x := by
            rw [alGetD, alGet_nhDec]
            simp [hxt, alGetD]
          have hxt2 : ¬ t = x := fun h => hxt h.symm
          have h3 : (t :: ts).count x = ts.count x := by
            rw [List.count_cons]
            simp [hxt2]
          rw [ihm x, hga, h3]
          simp [hxt]
      · have hnodup : (decTails nh (t :: ts)).2 = t :: (decTails (nhDec nh t) ts).2 := by
          simp [decTails, hz]
        rw [hnodup, List.nodup_cons]
        refine ⟨?_, ihnd⟩
        intro hmem
        have := (ihm t).mp hmem
        have : t ∈ ts := this.1
        have : 0 < ts.count t := List.count_pos_iff.mpr this
        omega
    · have hvne : v - 1 ≠ 0 := by
        intro hc
        apply hz
        rw [hget, hc]
      have hv2 : (2 : Int) ≤ v := by omega
      constructor
      · intro x
        have hmem : x ∈ (decTails nh (t :: ts)).2 ↔ x ∈ (decTails (nhDec nh t) ts).2 := by
          simp [decTails, hz]
        rw [hmem, ihm x]
        by_cases hxt : x = t
        · subst hxt
          rw [hdgd, hvd, List.count_cons_self]
          constructor
          · rintro ⟨hmem2, heq⟩
            have : 0 < ts.count x := List.count_pos_iff.mpr hmem2
            refine ⟨by simp, ?_⟩
            push_cast
            omega
          · rintro ⟨_, heq⟩
            push_cast at heq
            have hcp : 0 < ts.count x := by omega
            refine ⟨List.count_pos_iff.mp hcp, by omega⟩
        · have hga : alGetD (nhDec nh t) x = alGetD nh x := by
            rw [alGetD, alGet_nhDec]
            simp [hxt, alGetD]
          have hxt2 : ¬ t = x := fun h => hxt h.symm
          have h3 : (t :: ts).count x = ts.count x := by
            rw [List.count_cons]
            simp [hxt2]
          rw [hga, h3]
          simp [hxt]
      · have heq : (decTails nh (t :: ts)).2 = (decTails (nhDec nh t) ts).2 := by
          simp [decTails, hz]
        rw [heq]
        exact ihnd

theorem alGetD_nhInc {α : Type} [DecidableEq α] (nh : List (α × Int)) (x t : α) :
    alGetD (nhInc nh x) t = alGetD nh t + (if t = x then 1 else 0) := by
  rw [alGetD, alGet_nhInc]
  by_cases ht : t = x
  · simp [ht, alGetD]
  · simp [ht, alGetD]

theorem isSome_nhInc {α : Type} [DecidableEq α] (nh : List (α × Int)) (x t : α) :
    (alGet (nhInc nh x) t).isSome ↔ (t = x ∨ (alGet nh t).isSome) := by
  rw [alGet_nhInc]
  by_cases ht : t = x
  · simp [ht]
  · simp [ht]

theorem indeg_cons {α : Type} [DecidableEq α] (p : α × α) (pairs : List (α × α)) (t : α) :
    indeg (p :: pairs) t = indeg pairs t + (if t = p.2 then 1 else 0) := by
  rw [indeg, indeg, List.countP_cons]
  by_cases ht : t = p.2
  · simp [ht]
  · have ht2 : ¬ p.2 = t := fun h => ht h.symm
    simp [ht, ht2]

theorem kahnSetupStep_numHeads {α : Type} [DecidableEq α] (s : KahnState α) (p : α × α) :
    (kahnSetupStep s p).numHeads = nhInc s.numHeads p.2 := by
  unfold kahnSetupStep
  split <;> rfl

theorem setup_alGetD {α : Type} [DecidableEq α] (pairs : List (α × α)) :
    ∀ s : KahnState α, ∀ t,
      alGetD (List.foldl kahnSetupStep s pairs).numHeads t =
        alGetD s.numHeads t + (indeg pairs t : Int) := by
  induction pairs with
  | nil =>
    intro s t
    simp [indeg]
  | cons p pairs ih =>
    intro s t
    rw [List.foldl_cons, ih (kahnSetupStep s p) t, kahnSetupStep_numHeads,
      alGetD_nhInc, indeg_cons]
    by_cases ht : t = p.2
    · simp [ht]
      ring
    · simp [ht]

theorem setup_isSome {α : Type} [DecidableEq α] (pairs : List (α × α)) :
    ∀ s : KahnState α, ∀ t,
      (alGet (List.foldl kahnSetupStep s pairs).numHeads t).isSome ↔
        ((alGet s.numHeads t).isSome ∨ 0 < indeg pairs t) := by
  induction pairs with
  | nil =>
    intro s t
    simp [indeg]
  | cons p pairs ih =>
    intro s t
    rw [List.foldl_cons, ih (kahnSetupStep s p) t, kahnSetupStep_numHeads,
      isSome_nhInc, indeg_cons]
    by_cases ht : t = p.2
    · simp [ht]
    · simp [ht]

theorem alKeys_tlApp {α : Type} [DecidableEq α] (tl : List (α × List α)) (h t : α) :
    alKeys (tlApp tl h t) = if (alGet tl h).isSome then alKeys tl else alKeys tl ++ [h] := by
  induction tl with
  | nil => simp [tlApp, alKeys, alGet]
  | cons p rest ih =>
    by_cases hp : p.1 = h
    · simp [tlApp, hp, alKeys, alGet]
    · by_cases hs : (alGet rest h).isSome
      · simp only [alKeys] at ih
        simp [tlApp, hp, alKeys, alGet, hs, ih]
      · simp only [alKeys] at ih
        simp [tlApp, hp, alKeys, alGet, hs, ih]

theorem step_tailsOf {α : Type} [DecidableEq α] (s : KahnState α) (p : α × α) (h : α) :
    tailsOf (kahnSetupStep s p).tails h =
      tailsOf s.tails h ++ (if p.1 = h then [p.2] else []) := by
  unfold kahnSetupStep
  by_cases hpres : (alGet s.tails p.1).isSome
  · rw [if_pos hpres]
    rw [tailsOf, alGet_tlApp]
    by_cases hph : h = p.1
    · subst hph
      simp [tailsOf]
    · have hph2 : ¬ p.1 = h := fun hh => hph hh.symm
      simp [hph, hph2, tailsOf]
  · rw [if_neg hpres]
    rw [tailsOf, alGet_append]
    by_cases hph : p.1 = h
    · subst hph
      have : alGet s.tails p.1 = none := Option.not_isSome_iff_eq_none.mp hpres
      simp [this, alGet, tailsOf]
    · by_cases hsh : (alGet s.tails h).isSome
      · obtain ⟨v, hv⟩ := Option.isSome_iff_exists.mp hsh
        simp [hv, tailsOf, alGet, hph]
      · have : alGet s.tails h = none := Option.not_isSome_iff_eq_none.mp hsh
        simp [this, tailsOf, alGet, hph]

theorem setup_tailsOf {α : Type} [DecidableEq α] (pairs : List (α × α)) :
    ∀ s : KahnState α, ∀ h,
      tailsOf (List.foldl kahnSetupStep s pairs).tails h =
        tailsOf s.tails h ++ tailsTargets pairs h := by
  induction pairs with
  | nil =>
    intro s h
    simp [tailsTargets]
  | cons p pairs ih =>
    intro s h
    rw [List.foldl_cons, ih (kahnSetupStep s p) h, step_tailsOf]
    have : tailsTargets (p :: pairs) h =
        (if p.1 = h then [p.2] else []) ++ tailsTargets pairs h := by
      rw [tailsTargets, tailsTargets, List.filterMap_cons]
      by_cases hph : p.1 = h
      · simp [hph]
      · simp [hph]
    rw [this, List.append_assoc]

/-- Heads bookkeeping of the setup fold: membership, nodup, and the
synchronisation of `heads` with the keys of `tails`. -/
theorem setup_heads {α : Type} [DecidableEq α] (pairs : List (α × α)) :
    ∀ s : KahnState α,
      (∀ x, x ∈ s.heads ↔ (alGet s.tails x).isSome) → s.heads.Nodup →
      ((∀ x, x ∈ (List.foldl kahnSetupStep s pairs).heads ↔
          (x ∈ s.heads ∨ x ∈ pairs.map (·.1))) ∧
        (List.foldl kahnSetupStep s pairs).heads.Nodup ∧
        (∀ x, x ∈ (List.foldl kahnSetupStep s pairs).heads ↔
          (alGet (List.foldl kahnSetupStep s pairs).tails x).isSome)) := by
  induction pairs with
  | nil =>
    intro s hsync hnd
    exact ⟨fun x => by simp [hsync x], hnd, hsync⟩
  | cons p pairs ih =>
    intro s hsync hnd
    have hstep_sync : ∀ x, x ∈ (kahnSetupStep s p).heads ↔
        (alGet (kahnSetupStep s p).tails x).isSome := by
      intro x
      unfold kahnSetupStep
      by_cases hpres : (alGet s.tails p.1).isSome
      · rw [if_pos hpres]
        rw [hsync x, alGet_tlApp]
        by_cases hx : x = p.1
        · subst hx
          simp [hpres]
        · simp [hx]
      · rw [if_neg hpres]
        rw [alGet_append]
        by_cases hx : p.1 = x
        · subst hx
          have hn : alGet s.tails p.1 = none := Option.not_isSome_iff_eq_none.mp hpres
          simp [hn, alGet]
        · by_cases hsx : (alGet s.tails x).isSome
          · obtain ⟨v, hv⟩ := Option.isSome_iff_exists.mp hsx
            simp [hv, alGet, hx, hsync x]
          · have hn : alGet s.tails x = none := Option.not_isSome_iff_eq_none.mp hsx
            simp [hn, alGet, hx, hsync x]
            exact fun hh => hx hh.symm
    have hstep_mem : ∀ x, x ∈ (kahnSetupStep s p).heads ↔ (x ∈ s.heads ∨ x = p.1) := by
      intro x
      unfold kahnSetupStep
      by_cases hpres : (alGet s.tails p.1).isSome
      · rw [if_pos hpres]
        constructor
        · intro h; exact Or.inl h
        · rintro (h | h)
          · exact h
          · subst h; exact (hsync _).mpr hpres
      · rw [if_neg hpres]
        simp
    have hstep_nd : (kahnSetupStep s p).heads.Nodup := by
      unfold kahnSetupStep
      by_cases hpres : (alGet s.tails p.1).isSome
      · rw [if_pos hpres]
        exact hnd
      · rw [if_neg hpres]
        rw [List.nodup_append]
        refine ⟨hnd, List.nodup_singleton _, ?_⟩
        intro x hx hx1
        rcases List.mem_singleton.mp hx1 with rfl
        exact hpres ((hsync _).mp hx)
    rw [List.foldl_cons]
    obtain ⟨hm, hn, hs⟩ := ih (kahnSetupStep s p) hstep_sync hstep_nd
    refine ⟨?_, hn, hs⟩
    intro x
    rw [hm x, hstep_mem x]
    simp only [List.map_cons, List.mem_cons]
    constructor
    · rintro ((h | h) | h)
      · exact Or.inl h
      · exact Or.inr (Or.inl h)
      · exact Or.inr (Or.inr h)
    · rintro (h | h | h)
      · exact Or.inl (Or.inl h)
      · exact Or.inl (Or.inr h)
      · exact Or.inr h

theorem setup_nh_keysNodup {α : Type} [DecidableEq α] (pairs : List (α × α)) :
    ∀ s : KahnState α, (alKeys s.numHeads).Nodup →
      (alKeys (List.foldl kahnSetupStep s pairs).numHeads).Nodup := by
  induction pairs with
  | nil => intro s h; exact h
  | cons p pairs ih =>
    intro s h
    rw [List.foldl_cons]
    apply ih
    rw [kahnSetupStep_numHeads, alKeys_nhInc]
    by_cases hpres : (alGet s.numHeads p.2).isSome
    · rw [if_pos hpres]
      exact h
    · rw [if_neg hpres]
      rw [List.nodup_append]
      refine ⟨h, List.nodup_singleton _, ?_⟩
      intro x hx hx1
      rcases List.mem_singleton.mp hx1 with rfl
      exact hpres ((alGet_isSome_iff_mem_keys s.numHeads _).mpr hx)

theorem mem_nodesOf_left {α : Type} {pairs : List (α × α)} {p : α × α} (h : p ∈ pairs) :
    p.1 ∈ nodesOf pairs := by
  simp only [nodesOf, List.mem_flatMap]
  exact ⟨p, h, by simp⟩

theorem mem_nodesOf_right {α : Type} {pairs : List (α × α)} {p : α × α} (h : p ∈ pairs) :
    p.2 ∈ nodesOf pairs := by
  simp only [nodesOf, List.mem_flatMap]
  exact ⟨p, h, by simp⟩

theorem indeg_pos_of_mem {α : Type} [DecidableEq α] {pairs : List (α × α)} {p : α × α}
    (h : p ∈ pairs) : 0 < indeg pairs p.2 := by
  rw [indeg, List.countP_pos]
  exact ⟨p, h, by simp⟩

theorem doneEdges_le_indeg {α : Type} [DecidableEq α] (pairs : List (α × α))
    (done : List α) (t : α) : doneEdges pairs done t ≤ indeg pairs t :=
  countP_and_le pairs _ _

theorem doneEdges_append_single {α : Type} [DecidableEq α] (pairs : List (α × α))
    (done : List α) (h t : α) (hnd : h ∉ done) :
    doneEdges pairs (done ++ [h]) t =
      doneEdges pairs done t +
        pairs.countP (fun p => decide (p.2 = t) && decide (p.1 = h)) := by
  rw [doneEdges, doneEdges]
  have hcongr : pairs.countP (fun p => decide (p.2 = t) && decide (p.1 ∈ done ++ [h])) =
      pairs.countP (fun p => decide (p.2 = t) &&
        (decide (p.1 ∈ done) || decide (p.1 = h))) := by
    apply List.countP_congr
    intro p _
    by_cases h2 : p.2 = t <;> by_cases hm : p.1 ∈ done <;> by_cases he : p.1 = h <;>
      simp [h2, hm, he]
  rw [hcongr]
  exact countP_split_or pairs _ _ _ (by
    intro p _
    rintro ⟨hm, he⟩
    exact hnd ((of_decide_eq_true he) ▸ of_decide_eq_true hm))

theorem doneEdges_full {α : Type} [DecidableEq α] {pairs : List (α × α)}
    {done : List α} {t : α} (h : doneEdges pairs done t = indeg pairs t) :
    ∀ p ∈ pairs, p.2 = t → p.1 ∈ done := by
  intro p hp h2
  have := countP_and_eq_forall pairs (fun p => decide (p.2 = t))
    (fun p => decide (p.1 ∈ done)) h p hp (by simp [h2])
  exact of_decide_eq_true this

theorem decTails_keys {α : Type} [DecidableEq α] (ts : List α) :
    ∀ nh : List (α × Int), (∀ x ∈ ts, (alGet nh x).isSome) →
      alKeys (decTails nh ts).1 = alKeys nh := by
  induction ts with
  | nil => intro nh _; simp [decTails]
  | cons t ts ih =>
    intro nh hsome
    rw [decTails_fst]
    have hpres : (alGet nh t).isSome := hsome t (by simp)
    have hsome1 : ∀ y ∈ ts, (alGet (nhDec nh t) y).isSome := by
      intro y hy
      rw [alGet_nhDec]
      by_cases hyt : y = t
      · simp [hyt]
      · simp only [hyt, if_false]
        exact hsome y (by simp [hy])
    rw [ih (nhDec nh t) hsome1, alKeys_nhDec, if_pos hpres]

/-- The loop invariant of Kahn's algorithm as implemented by
`topological_sort`. -/
structure KahnInv {α : Type} [DecidableEq α] (pairs : List (α × α))
    (queue done : List α) (nh : List (α × Int)) : Prop where
  keysNodup : (alKeys nh).Nodup
  keysIff : ∀ t, (alGet nh t).isSome ↔ 0 < indeg pairs t
  valEq : ∀ t, alGetD nh t = (indeg pairs t : Int) - (doneEdges pairs done t : Int)
  doneNodup : done.Nodup
  queueNodup : queue.Nodup
  disj : ∀ x, x ∈ done → x ∉ queue
  subNodes : ∀ x, (x ∈ done ∨ x ∈ queue) → x ∈ nodesOf pairs
  zeroMem : ∀ t, (alGet nh t).isSome → alGetD nh t = 0 → (t ∈ done ∨ t ∈ queue)
  memZero : ∀ t, (t ∈ done ∨ t ∈ queue) → (alGet nh t).isSome → alGetD nh t = 0
  orderInv : ∀ p ∈ pairs,
    (p.2 ∈ done → appearsBefore done p.1 p.2) ∧ (p.2 ∈ queue → p.1 ∈ done)

theorem kahnInv_step {α : Type} [DecidableEq α] (pairs : List (α × α))
    (TAILS : List (α × List α))
    (hT : ∀ x, tailsOf TAILS x = tailsTargets pairs x)
    (h : α) (queue done : List α) (nh : List (α × Int))
    (hinv : KahnInv pairs (h :: queue) done nh) :
    KahnInv pairs (queue ++ (decTails nh (tailsOf TAILS h)).2)
      (done ++ [h]) (decTails nh (tailsOf TAILS h)).1 := by
  rw [hT h]
  set ts := tailsTargets pairs h with hts
  have hhq : h ∈ h :: queue := by simp
  have hnotdone : h ∉ done := by
    intro hd
    exact hinv.disj h hd hhq
  have hcount_ts : ∀ x, (ts.count x) =
      pairs.countP (fun p => decide (p.2 = x) && decide (p.1 = h)) := by
    intro x
    rw [hts, count_tailsTargets]
  have hsome_ts : ∀ x ∈ ts, (alGet nh x).isSome := by
    intro x hx
    rw [hinv.keysIff x]
    exact indeg_pos_of_mem (mem_tailsTargets.mp (hts ▸ hx))
  have hbound : ∀ x ∈ ts,
      (alGet nh x).isSome ∧ (ts.count x : Int) ≤ alGetD nh x := by
    intro x hx
    refine ⟨hsome_ts x hx, ?_⟩
    rw [hinv.valEq x, hcount_ts x]
    have hsplit : pairs.countP (fun p => decide (p.2 = x) &&
          (decide (p.1 ∈ done) || decide (p.1 = h))) =
        doneEdges pairs done x +
          pairs.countP (fun p => decide (p.2 = x) && decide (p.1 = h)) := by
      rw [doneEdges]
      exact countP_split_or pairs _ _ _ (by
        intro p _
        rintro ⟨hm, he⟩
        exact hnotdone ((of_decide_eq_true he) ▸ of_decide_eq_true hm))
    have hle : pairs.countP (fun p => decide (p.2 = x) &&
          (decide (p.1 ∈ done) || decide (p.1 = h))) ≤ indeg pairs x := by
      rw [indeg]
      exact countP_and_le pairs _ _
    rw [hsplit] at hle
    omega
  have hD1 := decTails_alGet ts nh hsome_ts
  have hD2 := decTails_newly ts nh hbound
  have hKeys := decTails_keys ts nh hsome_ts
  have hpres : ∀ x, (alGet (decTails nh ts).1 x).isSome ↔ (alGet nh x).isSome := by
    intro x
    rw [hD1 x]
    cases alGet nh x <;> simp
  have hval : ∀ x, (alGet nh x).isSome →
      alGetD (decTails nh ts).1 x = alGetD nh x - (ts.count x : Int) := by
    intro x hx
    obtain ⟨v, hv⟩ := Option.isSome_iff_exists.mp hx
    rw [alGetD, hD1 x, hv]
    simp [alGetD, hv]
  have hvalAbsent : ∀ x, ¬ (alGet nh x).isSome → alGetD (decTails nh ts).1 x = 0 := by
    intro x hx
    have hn : alGet nh x = none := Option.not_isSome_iff_eq_none.mp hx
    rw [alGetD, hD1 x, hn]
    simp
  have hcount_zero_done : ∀ t, (t ∈ done ∨ t ∈ h :: queue) → (alGet nh t).isSome →
      ts.count t = 0 := by
    intro t ht hsome
    have hz := hinv.memZero t (by
      rcases ht with ht | ht
      · exact Or.inl ht
      · exact Or.inr ht) hsome
    by_contra hc
    have hmem : t ∈ ts := List.count_pos_iff.mp (Nat.pos_of_ne_zero hc)
    have hedge : (h, t) ∈ pairs := mem_tailsTargets.mp (hts ▸ hmem)
    have hfull : doneEdges pairs done t = indeg pairs t := by
      have := hinv.valEq t
      rw [hz] at this
      have hle := doneEdges_le_indeg pairs done t
      omega
    exact hnotdone (doneEdges_full hfull (h, t) hedge rfl)
  refine ⟨?_, ?_, ?_, ?_, ?_, ?_, ?_, ?_, ?_, ?_⟩
  · rw [hKeys]
    exact hinv.keysNodup
  · intro t
    rw [hpres t]
    exact hinv.keysIff t
  · intro t
    rw [doneEdges_append_single pairs done h t hnotdone, ← hcount_ts t]
    by_cases hsome : (alGet nh t).isSome
    · rw [hval t hsome, hinv.valEq t]
      push_cast
      ring
    · rw [hvalAbsent t hsome]
      have hind : indeg pairs t = 0 := by
        by_contra hc
        exact hsome ((hinv.keysIff t).mpr (Nat.pos_of_ne_zero hc))
      have hde : doneEdges pairs done t = 0 := by
        have := doneEdges_le_indeg pairs done t
        omega
      have hcz : ts.count t = 0 := by
        by_contra hc
        have hmem : t ∈ ts := List.count_pos_iff.mp (Nat.pos_of_ne_zero hc)
        exact hsome (hsome_ts t hmem)
      rw [hind, hde, hcz]
      simp
  · rw [List.nodup_append]
    exact ⟨hinv.doneNodup, List.nodup_singleton _, by
      intro x hx hx1
      rcases List.mem_singleton.mp hx1 with rfl
      exact hnotdone hx⟩
  · rw [List.nodup_append]
    refine ⟨(List.nodup_cons.mp hinv.queueNodup).2, hD2.2, ?_⟩
    intro x hx hx2
    obtain ⟨hxts, hxval⟩ := (hD2.1 x).mp hx2
    have hsome : (alGet nh x).isSome := hsome_ts x hxts
    have hz := hinv.memZero x (Or.inr (by simp [hx])) hsome
    have hcpos : 0 < ts.count x := List.count_pos_iff.mpr hxts
    omega
  · intro x hx
    rw [List.mem_append] at hx
    rcases hx with hx | hx
    · intro hq
      rw [List.mem_append] at hq
      rcases hq with hq | hq
      · exact hinv.disj x hx (by simp [hq])
      · obtain ⟨hxts, hxval⟩ := (hD2.1 x).mp hq
        have hsome : (alGet nh x).isSome := hsome_ts x hxts
        have hz := hinv.memZero x (Or.inl hx) hsome
        have hcpos : 0 < ts.count x := List.count_pos_iff.mpr hxts
        omega
    · rcases List.mem_singleton.mp hx with rfl
      intro hq
      rw [List.mem_append] at hq
      rcases hq with hq | hq
      · exact (List.nodup_cons.mp hinv.queueNodup).1 hq
      · obtain ⟨hxts, hxval⟩ := (hD2.1 _).mp hq
        have hsome : (alGet nh _).isSome := hsome_ts _ hxts
        have hz := hinv.memZero _ (Or.inr hhq) hsome
        have hcpos : 0 < ts.count _ := List.count_pos_iff.mpr hxts
        omega
  · intro x hx
    rcases hx with hx | hx
    · rw [List.mem_append] at hx
      rcases hx with hx | hx
      · exact hinv.subNodes x (Or.inl hx)
      · rcases List.mem_singleton.mp hx with rfl
        exact hinv.subNodes _ (Or.inr hhq)
    · rw [List.mem_append] at hx
      rcases hx with hx | hx
      · exact hinv.subNodes x (Or.inr (by simp [hx]))
      · obtain ⟨hxts, _⟩ := (hD2.1 x).mp hx
        exact mem_nodesOf_right (mem_tailsTargets.mp (hts ▸ hxts))
  · intro t hsome' hval'
    have hsome : (alGet nh t).isSome := (hpres t).mp hsome'
    rw [hval t hsome] at hval'
    by_cases hz : alGetD nh t = 0
    · have := hinv.zeroMem t hsome hz
      rcases this with hd | hq
      · exact Or.inl (by simp [hd])
      · rcases List.mem_cons.mp hq with hq | hq
        · exact Or.inl (by simp [hq])
        · exact Or.inr (by simp [hq])
    · have hcount : alGetD nh t = (ts.count t : Int) := by omega
      have hcpos : 0 < ts.count t := by
        by_contra hc
        have : ts.count t = 0 := by omega
        rw [this] at hcount
        exact hz (by simpa using hcount)
      have hmem : t ∈ (decTails nh ts).2 :=
        (hD2.1 t).mpr ⟨List.count_pos_iff.mp hcpos, hcount⟩
      exact Or.inr (by simp [hmem])
  · intro t ht hsome'
    have hsome : (alGet nh t).isSome := (hpres t).mp hsome'
    rw [hval t hsome]
    rcases ht with ht | ht
    · rw [List.mem_append] at ht
      rcases ht with ht | ht
      · have hz := hinv.memZero t (Or.inl ht) hsome
        have hcz := hcount_zero_done t (Or.inl ht) hsome
        rw [hz, hcz]
        simp
      · rcases List.mem_singleton.mp ht with rfl
        have hz := hinv.memZero _ (Or.inr hhq) hsome
        have hcz := hcount_zero_done _ (Or.inr hhq) hsome
        rw [hz, hcz]
        simp
    · rw [List.mem_append] at ht
      rcases ht with ht | ht
      · have hz := hinv.memZero t (Or.inr (by simp [ht])) hsome
        have hcz := hcount_zero_done t (Or.inr (by simp [ht])) hsome
        rw [hz, hcz]
        simp
      · obtain ⟨hxts, hxval⟩ := (hD2.1 t).mp ht
        omega
  · intro p hp
    obtain ⟨ho1, ho2⟩ := hinv.orderInv p hp
    constructor
    · intro hmem
      rw [List.mem_append] at hmem
      rcases hmem with hmem | hmem
      · exact appearsBefore_append_left [h] (ho1 hmem)
      · rcases List.mem_singleton.mp hmem with heq
        rw [heq]
        have hp1 : p.1 ∈ done := ho2 (heq ▸ hhq)
        exact appearsBefore_append_new h hp1
    · intro hmem
      rw [List.mem_append] at hmem
      rcases hmem with hmem | hmem
      · exact List.mem_append.mpr (Or.inl (ho2 (by simp [hmem])))
      · obtain ⟨hxts, hxval⟩ := (hD2.1 p.2).mp hmem
        have hsome : (alGet nh p.2).isSome := hsome_ts p.2 hxts
        have hfull : doneEdges pairs (done ++ [h]) p.2 = indeg pairs p.2 := by
          have hv := hinv.valEq p.2
          rw [hxval] at hv
          rw [doneEdges_append_single pairs done h p.2 hnotdone, ← hcount_ts p.2]
          omega
        exact doneEdges_full hfull p hp rfl

theorem kahnLoop_inv {α : Type} [DecidableEq α] (pairs : List (α × α))
    (TAILS : List (α × List α))
    (hT : ∀ x, tailsOf TAILS x = tailsTargets pairs x) :
    ∀ (n : Nat) (queue done : List α) (nh : List (α × Int)),
      queue.length + nhWeight nh ≤ n →
      KahnInv pairs queue done nh →
      KahnInv pairs [] (kahnLoop TAILS queue done nh).1
        (kahnLoop TAILS queue done nh).2 := by
  intro n
  induction n with
  | zero =>
    intro queue done nh hle hinv
    have hq : queue = [] := List.length_eq_zero.mp (by omega)
    subst hq
    simpa [kahnLoop, kahnLoopF_nil] using hinv
  | succ n ih =>
    intro queue done nh hle hinv
    match queue with
    | [] => simpa [kahnLoop, kahnLoopF_nil] using hinv
    | h :: queue =>
      have hstep := kahnInv_step pairs TAILS hT h queue done nh hinv
      have hw := decTails_weight (tailsOf TAILS h) nh
      rw [kahnLoop_cons]
      apply ih _ _ _ _ hstep
      simp only [List.length_append]
      simp only [List.length_cons] at hle
      omega

theorem kahnLoop_mono {α : Type} [DecidableEq α] (TAILS : List (α × List α)) :
    ∀ (n : Nat) (queue done : List α) (nh : List (α × Int)),
      queue.length + nhWeight nh ≤ n →
      ∀ x, (x ∈ done ∨ x ∈ queue) → x ∈ (kahnLoop TAILS queue done nh).1 := by
  intro n
  induction n with
  | zero =>
    intro queue done nh hle x hx
    have hq : queue = [] := List.length_eq_zero.mp (by omega)
    subst hq
    rcases hx with hx | hx
    · simpa [kahnLoop, kahnLoopF_nil] using hx
    · simp at hx
  | succ n ih =>
    intro queue done nh hle x hx
    match queue with
    | [] =>
      rcases hx with hx | hx
      · simpa [kahnLoop, kahnLoopF_nil] using hx
      · simp at hx
    | h :: queue =>
      have hw := decTails_weight (tailsOf TAILS h) nh
      rw [kahnLoop_cons]
      apply ih _ _ _ (by
        simp only [List.length_append]
        simp only [List.length_cons] at hle
        omega)
      rcases hx with hx | hx
      · exact Or.inl (by simp [hx])
      · rcases List.mem_cons.mp hx with hx | hx
        · exact Or.inl (by simp [hx])
        · exact Or.inr (by simp [hx])

theorem countP_and_eq_of_forall {α : Type} (l : List α) (P Q : α → Bool)
    (h : ∀ x ∈ l, P x = true → Q x = true) :
    l.countP (fun x => P x && Q x) = l.countP P := by
  induction l with
  | nil => simp
  | cons a l ih =>
    have ha : ∀ x ∈ l, P x = true → Q x = true := fun x hx => h x (by simp [hx])
    rw [List.countP_cons, List.countP_cons, ih ha]
    by_cases hpa : P a
    · have hqa := h a (by simp) hpa
      simp [hpa, hqa]
    · simp [hpa]

theorem exists_min_list {α : Type} (l : List α) (f : α → Nat) (h : l ≠ []) :
    ∃ a ∈ l, ∀ b ∈ l, f a ≤ f b := by
  induction l with
  | nil => exact absurd rfl h
  | cons a l ih =>
    by_cases hl : l = []
    · subst hl
      exact ⟨a, by simp, by simp⟩
    · obtain ⟨m, hm, hmin⟩ := ih hl
      by_cases hfa : f a ≤ f m
      · refine ⟨a, by simp, ?_⟩
        intro b hb
        rcases List.mem_cons.mp hb with hb | hb
        · subst hb; exact le_refl _
        · exact le_trans hfa (hmin b hb)
      · refine ⟨m, by simp [hm], ?_⟩
        intro b hb
        rcases List.mem_cons.mp hb with hb | hb
        · subst hb; omega
        · exact hmin b hb

theorem alGet_eq_of_mem_nodup {α β : Type} [DecidableEq α] {l : List (α × β)}
    (hnd : (alKeys l).Nodup) (a : α) (b : β) :
    (a, b) ∈ l ↔ alGet l a = some b := by
  induction l with
  | nil => simp [alGet]
  | cons p rest ih =>
    have hnd2 : (alKeys rest).Nodup := (List.nodup_cons.mp hnd).2
    have hp1 : p.1 ∉ alKeys rest := (List.nodup_cons.mp hnd).1
    constructor
    · intro hmem
      rcases List.mem_cons.mp hmem with hmem | hmem

      · rw [← hmem]
        simp [alGet]
      · have hne : ¬ p.1 = a := by
          intro he
          apply hp1
          rw [he]
          exact (alGet_isSome_iff_mem_keys rest a).mp
            (by rw [(ih hnd2).mp hmem]; rfl)
        simp only [alGet, hne, if_false]
        exact (ih hnd2).mp hmem
    · intro hget
      by_cases hne : p.1 = a
      · simp only [alGet, hne, if_true] at hget
        have : p = (a, b) := by
          cases p
          simp_all
        simp [this]
      · simp only [alGet, hne, if_false] at hget
        exact List.mem_cons_of_mem p ((ih hnd2).mpr hget)

/-- The final-state invariant of the whole `topological_sort` run. -/
theorem kahnFinal_inv {α : Type} [DecidableEq α] (pairs : List (α × α)) :
    KahnInv pairs [] (kahnFinal pairs).1 (kahnFinal pairs).2 := by
  have hT : ∀ x, tailsOf (kahnSetup pairs).tails x = tailsTargets pairs x := by
    intro x
    have := setup_tailsOf pairs ⟨[], [], []⟩ x
    simpa [kahnSetup, tailsOf, alGet] using this
  have hq0sync := setup_heads pairs ⟨[], [], []⟩ (by simp [alGet]) (by simp)
  have hgetd : ∀ t, alGetD (kahnSetup pairs).numHeads t = (indeg pairs t : Int) := by
    intro t
    have := setup_alGetD pairs ⟨[], [], []⟩ t
    simpa [kahnSetup, alGetD, alGet] using this
  have hsome : ∀ t, (alGet (kahnSetup pairs).numHeads t).isSome ↔ 0 < indeg pairs t := by
    intro t
    have := setup_isSome pairs ⟨[], [], []⟩ t
    simpa [kahnSetup, alGet] using this
  have hinv0 : KahnInv pairs
      ((kahnSetup pairs).heads.filter (fun h => !(alGet (kahnSetup pairs).numHeads h).isSome))
      [] (kahnSetup pairs).numHeads := by
    refine ⟨?_, hsome, ?_, by simp, ?_, ?_, ?_, ?_, ?_, ?_⟩
    · exact setup_nh_keysNodup pairs ⟨[], [], []⟩ (by simp [alKeys])
    · intro t
      rw [hgetd t]
      have : doneEdges pairs [] t = 0 := by
        simp [doneEdges]
      rw [this]
      simp
    · exact List.Nodup.filter _ hq0sync.2.1
    · intro x hx
      simp at hx
    · intro x hx
      rcases hx with hx | hx
      · simp at hx
      · have hmem := List.mem_of_mem_filter hx
        have := (hq0sync.1 x).mp hmem
        rcases this with h | h
        · simp at h
        · rcases List.mem_map.mp h with ⟨p, hp, he⟩
          exact he ▸ mem_nodesOf_left hp
    · intro t hs hz
      rw [hgetd t] at hz
      have : indeg pairs t = 0 := by omega
      rw [hsome t] at hs
      omega
    · intro t ht hs
      rcases ht with ht | ht
      · simp at ht
      · have := List.of_mem_filter ht
        simp only [Bool.not_eq_true'] at this
        rw [this] at hs
        simp at hs
    · intro p hp
      refine ⟨?_, ?_⟩
      · intro h
        simp at h
      · intro h
        have := List.of_mem_filter h
        simp only [Bool.not_eq_true'] at this
        exfalso
        have hpos : 0 < indeg pairs p.2 := indeg_pos_of_mem hp
        rw [← hsome p.2] at hpos
        rw [this] at hpos
        simp at hpos
  exact kahnLoop_inv pairs (kahnSetup pairs).tails hT
    (((kahnSetup pairs).heads.filter _).length + nhWeight (kahnSetup pairs).numHeads)
    _ _ _ (le_refl _) hinv0

theorem mem_nodesOf_cases {α : Type} {pairs : List (α × α)} {x : α}
    (h : x ∈ nodesOf pairs) : x ∈ pairs.map (·.1) ∨ x ∈ pairs.map (·.2) := by
  simp only [nodesOf, List.mem_flatMap] at h
  obtain ⟨p, hp, hmem⟩ := h
  rcases List.mem_cons.mp hmem with hmem | hmem
  · exact Or.inl (List.mem_map.mpr ⟨p, hp, hmem.symm⟩)
  · rcases List.mem_singleton.mp hmem with rfl
    exact Or.inr (List.mem_map.mpr ⟨p, hp, rfl⟩)

theorem kahnFinal_mem_of_no_key {α : Type} [DecidableEq α] (pairs : List (α × α)) (x : α)
    (hx : x ∈ nodesOf pairs) (hns : ¬(alGet (kahnFinal pairs).2 x).isSome) :
    x ∈ (kahnFinal pairs).1 := by
  have hinv := kahnFinal_inv pairs
  have hideg : indeg pairs x = 0 := by
    by_contra hc
    exact hns ((hinv.keysIff x).mpr (Nat.pos_of_ne_zero hc))
  have hhead : x ∈ pairs.map (·.1) := by
    rcases mem_nodesOf_cases hx with h | h
    · exact h
    · exfalso
      rcases List.mem_map.mp h with ⟨p, hp, he⟩
      have hpos := indeg_pos_of_mem hp
      rw [he] at hpos
      omega
  have hq0sync := setup_heads pairs ⟨[], [], []⟩ (by simp [alGet]) (by simp)
  have hxheads : x ∈ (kahnSetup pairs).heads := by
    apply (hq0sync.1 x).mpr
    exact Or.inr hhead
  have hnh0 : ¬(alGet (kahnSetup pairs).numHeads x).isSome := by
    intro hc
    have := setup_isSome pairs ⟨[], [], []⟩ x
    have h2 : (alGet ([] : List (α × Int)) x).isSome ∨ 0 < indeg pairs x := this.mp hc
    rcases h2 with h2 | h2
    · simp [alGet] at h2
    · omega
  have hq0 : x ∈ (kahnSetup pairs).heads.filter
      (fun h => !(alGet (kahnSetup pairs).numHeads h).isSome) :=
    List.mem_filter.mpr ⟨hxheads, by simp [hnh0]⟩
  exact kahnLoop_mono (kahnSetup pairs).tails
    (((kahnSetup pairs).heads.filter
      (fun h => !(alGet (kahnSetup pairs).numHeads h).isSome)).length +
      nhWeight (kahnSetup pairs).numHeads)
    _ _ _ (le_refl _) x (Or.inr hq0)

theorem topological_sort_cyclic_mem {α : Type} [DecidableEq α] (pairs : List (α × α))
    (x : α) :
    x ∈ (topological_sort pairs).cyclic ↔
      ((alGet (kahnFinal pairs).2 x).isSome ∧ alGetD (kahnFinal pairs).2 x ≠ 0) := by
  have hinv := kahnFinal_inv pairs
  show x ∈ ((kahnFinal pairs).2.filter (fun p => p.2 ≠ 0)).map (·.1) ↔ _
  constructor
  · intro hx
    rcases List.mem_map.mp hx with ⟨p, hp, he⟩
    have hpf := List.mem_of_mem_filter hp
    have hcnd := List.of_mem_filter hp
    have hcond : p.2 ≠ 0 := by simpa using hcnd
    have hget : alGet (kahnFinal pairs).2 p.1 = some p.2 :=
      (alGet_eq_of_mem_nodup hinv.keysNodup p.1 p.2).mp (by
        cases p
        exact hpf)
    rw [← he]
    refine ⟨by simp [hget], ?_⟩
    rw [alGetD, hget]
    simpa using hcond
  · rintro ⟨hs, hv⟩
    obtain ⟨v, hvget⟩ := Option.isSome_iff_exists.mp hs
    have hvne : v ≠ 0 := by
      intro hc
      apply hv
      rw [alGetD, hvget, hc]
      rfl
    have hmem : (x, v) ∈ (kahnFinal pairs).2 :=
      (alGet_eq_of_mem_nodup hinv.keysNodup x v).mpr hvget
    apply List.mem_map.mpr
    exact ⟨(x, v), List.mem_filter.mpr ⟨hmem, by simpa using hvne⟩, rfl⟩

theorem topological_sort_partition {α : Type} [DecidableEq α] (pairs : List (α × α))
    (x : α) :
    x ∈ (topological_sort pairs).cyclic ↔
      (x ∈ nodesOf pairs ∧ x ∉ (topological_sort pairs).sorted) := by
  have hinv := kahnFinal_inv pairs
  rw [topological_sort_cyclic_mem]
  show _ ↔ (x ∈ nodesOf pairs ∧ x ∉ (kahnFinal pairs).1)
  constructor
  · rintro ⟨hs, hv⟩
    have hpos : 0 < indeg pairs x := (hinv.keysIff x).mp hs
    have hxnodes : x ∈ nodesOf pairs := by
      rw [indeg, List.countP_pos] at hpos
      obtain ⟨p, hp, hpx⟩ := hpos
      have he : p.2 = x := of_decide_eq_true hpx
      exact he ▸ mem_nodesOf_right hp
    refine ⟨hxnodes, ?_⟩
    intro hdone
    exact hv (hinv.memZero x (Or.inl hdone) hs)
  · rintro ⟨hnodes, hnd⟩
    have hs : (alGet (kahnFinal pairs).2 x).isSome := by
      by_contra hns
      exact hnd (kahnFinal_mem_of_no_key pairs x hnodes hns)
    refine ⟨hs, ?_⟩
    intro hz
    rcases hinv.zeroMem x hs hz with hd | hq
    · exact hnd hd
    · simp at hq

/-- C10: unconditionally, the cyclic list of `topological_sort` consists of
exactly the graph nodes missing from the sorted output (so nodes merely
downstream of a cycle are also reported cyclic); and on an acyclic input the
cyclic list is empty, the sorted output lists every node of the graph
exactly once, and the first component of every dependency pair appears
strictly before its second component. -/
theorem c10_topological_sort {α : Type} [DecidableEq α] (pairs : List (α × α)) :
    (∀ x, x ∈ (topological_sort pairs).cyclic ↔
      (x ∈ nodesOf pairs ∧ x ∉ (topological_sort pairs).sorted)) ∧
    (Acyclic pairs →
      (topological_sort pairs).cyclic = [] ∧
      (topological_sort pairs).sorted.Nodup ∧
      (∀ x, x ∈ (topological_sort pairs).sorted ↔ x ∈ nodesOf pairs) ∧
      (∀ p ∈ pairs, appearsBefore (topological_sort pairs).sorted p.1 p.2)) := by
  have hinv := kahnFinal_inv pairs
  refine ⟨topological_sort_partition pairs, ?_⟩
  rintro ⟨f, hf⟩
  have hcyc_empty : (topological_sort pairs).cyclic = [] := by
    by_contra hne
    obtain ⟨a, ha, hamin⟩ := exists_min_list (topological_sort pairs).cyclic f hne
    obtain ⟨hs, hv⟩ := (topological_sort_cyclic_mem pairs a).mp ha
    have hval := hinv.valEq a
    have hle := doneEdges_le_indeg pairs (kahnFinal pairs).1 a
    have hlt : doneEdges pairs (kahnFinal pairs).1 a < indeg pairs a := by
      omega
    have hnall : ¬ ∀ p ∈ pairs, decide (p.2 = a) = true →
        decide (p.1 ∈ (kahnFinal pairs).1) = true := by
      intro hall
      have heq := countP_and_eq_of_forall pairs (fun p => decide (p.2 = a))
        (fun p => decide (p.1 ∈ (kahnFinal pairs).1)) hall
      rw [show pairs.countP (fun p => decide (p.2 = a) &&
          decide (p.1 ∈ (kahnFinal pairs).1)) =
        doneEdges pairs (kahnFinal pairs).1 a from rfl] at heq
      rw [show pairs.countP (fun p => decide (p.2 = a)) = indeg pairs a from rfl] at heq
      omega
    push_neg at hnall
    obtain ⟨p, hp, hpt, hpd⟩ := hnall
    have hpt2 : p.2 = a := of_decide_eq_true hpt
    have hpd2 : p.1 ∉ (kahnFinal pairs).1 := fun hm => hpd (decide_eq_true hm)
    have hp1cyc : p.1 ∈ (topological_sort pairs).cyclic :=
      (topological_sort_partition pairs p.1).mpr ⟨mem_nodesOf_left hp, hpd2⟩
    have hmin := hamin p.1 hp1cyc
    have hlt2 := hf p hp
    rw [hpt2] at hlt2
    omega
  refine ⟨hcyc_empty, hinv.doneNodup, ?_, ?_⟩
  · intro x
    constructor
    · intro h
      exact hinv.subNodes x (Or.inl h)
    · intro h
      by_contra hnd
      have hx : x ∈ (topological_sort pairs).cyclic :=
        (topological_sort_partition pairs x).mpr ⟨h, hnd⟩
      rw [hcyc_empty] at hx
      simp at hx
  · intro p hp
    have hmem : p.2 ∈ (topological_sort pairs).sorted := by
      by_contra hnd
      have hx : p.2 ∈ (topological_sort pairs).cyclic :=
        (topological_sort_partition pairs p.2).mpr ⟨mem_nodesOf_right hp, hnd⟩
      rw [hcyc_empty] at hx
      simp at hx
    exact (hinv.orderInv p hp).1 hmem

/-- Witness for `c10_topological_sort`: the chain `0 → 1 → 2` is acyclic
(ranked by the identity), sorts to `[0, 1, 2]` with an empty cyclic list. -/
theorem c10_topological_sort_witness :
    (topological_sort [(0, 1), (1, 2)]).cyclic = [] ∧
      ((0 : Nat) ∈ (topological_sort [(0, 1), (1, 2)]).sorted ↔
        (0 : Nat) ∈ nodesOf [(0, 1), (1, 2)]) := by
  have h := (c10_topological_sort [((0 : Nat), (1 : Nat)), (1, 2)]).2
    ⟨id, by
      intro p hp
      rcases List.mem_cons.mp hp with hp | hp
      · subst hp; decide
      · rcases List.mem_singleton.mp hp with rfl
        decide⟩
  exact ⟨h.1, h.2.2.1 0⟩

/-! ### Dependency-sorted collector order (collectors.py, lines 873-920) -/

/-- `DstDatabase.tables_without_generics`. -/
def tablesWithoutGenerics (cfg : Config) (schema : Schema) : List DBTableDef :=
  schema.filter (fun t => !cfg.genericTables.contains t.name)

/-- The dependency pairs `(table.name, fk_column.constraint_table.name)`
over the non-self foreign keys of the non-generic tables. -/
def dependencyPairs (cfg : Config) (schema : Schema) : List (String × String) :=
  (tablesWithoutGenerics cfg schema).flatMap (fun t =>
    t.notSelfFkColumns.filterMap (fun c => c.constraintTable.map (fun n => (t.name, n))))

/-- The iteration order of `SortedByDependencyTablesCollector.collect`:
reverse the cyclic remainder and the sorted output in place, concatenate
cyclic-then-sorted, and prepend the non-generic tables mentioned in neither
(the source materialises those from a Python set whose iteration order is
unspecified; the model keeps them in schema order). -/
def sortedTablesByDependency (cfg : Config) (schema : Schema) : List String :=
  ((tablesWithoutGenerics cfg schema).map (·.name)).filter
      (fun n => !((topological_sort (dependencyPairs cfg schema)).cyclic.reverse ++
        (topological_sort (dependencyPairs cfg schema)).sorted.reverse).contains n) ++
    ((topological_sort (dependencyPairs cfg schema)).cyclic.reverse ++
      (topological_sort (dependencyPairs cfg schema)).sorted.reverse)

/-! ### Sequentialised state-transition model of the collector pipeline

Per-table mutable state mirrors `DBTable` (`need_transfer_pks` as an
insertion-ordered duplicate-free list, `is_checked`,
`is_ready_for_transferring`, `full_count`).  `full_count` is populated by an
external row-count stage that is not part of the core sources; the concrete
scenarios below set it to the source row count as the spec describes.

Queries are deduplicated on an abstract query descriptor (table, output
column, primary-key restriction, conditions, revert flag): two calls with
equal descriptors render equal SQL strings in the source (string rendering
is deterministic), so a repeated descriptor is skipped exactly as a repeated
query hash is.  In all concrete scenarios every executed descriptor is
distinct, so the granularity difference to per-chunk string hashing is
irrelevant there (the scenarios never exceed one chunk). -/

/-- `CHUNK_SIZE` of `BaseCollector` and `SQLRepository`. -/
def CHUNK_SIZE : Nat := 60000

/-- `make_chunks` of helpers.py (with `is_list=True`), structurally
recursive on a fuel that the wrapper instantiates with the list length
(each step consumes at least the head element, so that fuel always
suffices). -/
def makeChunksFuel {β : Type} : Nat → List β → Nat → List (List β)
  | _, [], _ => []
  | 0, _ :: _, _ => []
  | fuel + 1, x :: rest, size =>
    (x :: rest.take (size - 1)) :: makeChunksFuel fuel (rest.drop (size - 1)) size

/-- `make_chunks` of helpers.py (with `is_list=True`). -/
def makeChunks {β : Type} (l : List β) (size : Nat) : List (List β) :=
  makeChunksFuel l.length l size

/-- Insert a value into a set modelled as a duplicate-free list. -/
def setInsert (l : List Int) (v : Int) : List Int :=
  if l.contains v then l else l ++ [v]

/-- `set.update(...)`. -/
def setUnion (l : List Int) (vs : List Int) : List Int :=
  vs.foldl setInsert l

/-- `set.difference(...)` keeping first-seen order. -/
def setDiff (a b : List Int) : List Int :=
  a.filter (fun v => !b.contains v)

/-- The mutable per-table state of `DBTable`. -/
structure TableState where
  needTransferPks : List Int
  isChecked : Bool
  isReady : Bool
  fullCount : Nat
  deriving DecidableEq, Repr

/-- A source row: the assignment of column names to nullable values. -/
abbrev Row := List (String × Option Int)

/-- The source database contents, parallel to the schema table list. -/
abbrev SourceDB := List (List Row)

/-- The environment of a run: configuration, loaded schema, source data. -/
structure Env where
  cfg : Config
  schema : Schema
  src : SourceDB
  deriving Repr

/-- The abstract descriptor of one `_get_table_column_values` query,
standing in for the hash of the rendered SQL string. -/
structure QueryKey where
  tableIdx : Nat
  columnName : String
  pkValues : List Int
  conditions : List (String × List Int)
  isRevert : Bool
  deriving DecidableEq, Repr

/-- The global mutable state: per-table states (parallel to the schema) and
the process-wide executed-query set (`BaseCollector.QUERY_HASHES`). -/
structure PState where
  tables : List TableState
  executed : List QueryKey
  deriving DecidableEq, Repr

def defaultTS : TableState := ⟨[], false, false, 0⟩

def getTS (st : PState) (i : Nat) : TableState :=
  (st.tables.get? i).getD defaultTS

def setTS (st : PState) (i : Nat) (f : TableState → TableState) : PState :=
  { st with tables := st.tables.set i (f (getTS st i)) }

def needOf (st : PState) (i : Nat) : List Int := (getTS st i).needTransferPks

def readyOf (st : PState) (i : Nat) : Bool := (getTS st i).isReady

def checkedOf (st : PState) (i : Nat) : Bool := (getTS st i).isChecked

/-- `table.is_full_prepared` over the model state. -/
def isFullPreparedOf (st : PState) (i : Nat) : Bool :=
  isFullPrepared (needOf st i).length (getTS st i).fullCount

def emptyTable : DBTableDef := ⟨"", []⟩

def tableDef (env : Env) (i : Nat) : DBTableDef :=
  (env.schema.get? i).getD emptyTable

/-- Index of a table of the schema by name. -/
def tableIdxByName (schema : Schema) (n : String) : Option Nat :=
  schema.findIdx? (fun t => t.name == n)

/-- Index of the table referenced by a foreign-key column. -/
def refIdx (env : Env) (c : DBColumn) : Option Nat :=
  c.constraintTable.bind (tableIdxByName env.schema)

def withKeyColumnIdx (env : Env) (i : Nat) : Bool :=
  (tableDef env i).withKeyColumn env.cfg

/-- `table.revert_foreign_tables`: for every table, the referring tables
with the columns by which they refer (order: schema order, column order). -/
def revertForeignTablesOf (env : Env) (i : Nat) : List (Nat × List DBColumn) :=
  (List.range env.schema.length).filterMap (fun r =>
    let cols := (tableDef env r).columns.filter (fun c =>
      c.isForeignKey && (refIdx env c == some i))
    if cols ≠ [] then some (r, cols) else none)

/-- Value of a column in a row (missing columns read as NULL). -/
def rowValue (r : Row) (c : String) : Option Int :=
  match alGet r c with
  | some v => v
  | none => none

/-- One condition of the `where_conditions_columns` mapping, as rendered by
`get_table_column_values_sql`: a non-empty list yields `c IN (...)` with
`OR c ISNULL` unless `is_revert`; an empty list degenerates to `c ISNULL`. -/
def condSat (isRevert : Bool) (r : Row) (cond : String × List Int) : Bool :=
  if cond.2 ≠ [] then
    match rowValue r cond.1 with
    | some v => cond.2.contains v
    | none => !isRevert
  else
    rowValue r cond.1 == none

/-- The row predicate of `_select_table_column_values_part_sql`: foreign
conditions (key-named columns skipped), optional primary-key restriction,
and the tenant predicate `key_col IN (...) OR key_col ISNULL` when the table
carries the key column and tenant values are supplied. -/
def rowSat (env : Env) (kvs : List Int) (ti : Nat) (pkVals : List Int)
    (conds : List (String × List Int)) (isRevert : Bool) (r : Row) : Bool :=
  let t := tableDef env ti
  ((conds.filter (fun c => !env.cfg.keyColumnNames.contains c.1)).all
      (condSat isRevert r)) &&
  (pkVals.isEmpty ||
    (match t.primaryKey with
     | some pk =>
       match rowValue r pk.name with
       | some v => pkVals.contains v
       | none => false
     | none => false)) &&
  (!(t.withKeyColumn env.cfg) || kvs.isEmpty ||
    (match t.keyColumn env.cfg with
     | some kc =>
       match rowValue r kc.name with
       | some v => kvs.contains v
       | none => true
     | none => true))

/-- The set of values the chunked query family of one
`_get_table_column_values` call returns: the union over all chunk
combinations equals the unchunked predicate, and NULLs are dropped by
`_get_table_column_values_part`. -/
def selectValues (env : Env) (kvs : List Int) (ti : Nat) (colName : String)
    (pkVals : List Int) (conds : List (String × List Int)) (isRevert : Bool) :
    List Int :=
  ((((env.src.get? ti).getD []).filter
      (rowSat env kvs ti pkVals conds isRevert)).filterMap
    (fun r => rowValue r colName)).foldl setInsert []

/-- `_get_table_column_values`: guards (AttributeError on a missing column
object or referenced table is caught and yields the empty set; excluded
referents yield the empty set), query-hash deduplication, then the fetch. -/
def getTableColumnValues (env : Env) (kvs : List Int) (st : PState) (ti : Nat)
    (column : Option DBColumn) (pkVals : List Int)
    (conds : List (String × List Int)) (isRevert : Bool) : List Int × PState :=
  match column with
  | none => ([], st)
  | some col =>
    match col.constraintTable with
    | none => ([], st)
    | some ctName =>
      if env.cfg.excludedTables.contains ctName then ([], st)
      else
        let key : QueryKey := ⟨ti, col.name, pkVals, conds, isRevert⟩
        if st.executed.contains key then ([], st)
        else
          (selectValues env kvs ti col.name pkVals conds isRevert,
            { st with executed := st.executed ++ [key] })

/-! ### `TablesWithKeyColumnSiblingsCollector` (collectors.py, lines 262-713)

The mutually recursive forward and reverse passes, sequentialised: each
`asyncio.wait` over a task list becomes a fold in task-creation order; the
shared mutable `stack_tables` set is threaded through sibling tasks (and
snapshot-copied exactly where the source copies it: the per-column
`stack_tables - {table}` of the hierarchy pass and the
`copy(stack_tables)` before the forward call of the reverse pass).  The
recursion is bounded by explicit fuel; at zero fuel the state is returned
unchanged (all theorems below either hold for every fuel or are evaluated
at a fuel large enough for the concrete scenario to run to completion). -/

mutual

/-- `_direct_recursively_preparing_foreign_table_chunk`. -/
def directForeignChunk (env : Env) (kvs : List Int) :
    Nat → PState → Nat → DBColumn → List Int → List Nat → PState × List Nat
  | 0, st, _, _, _, stack => (st, stack)
  | fuel + 1, st, ti, col, chunk, stack =>
    match refIdx env col with
    | none => (st, stack)
    | some fi =>
      let st1 := setTS st fi (fun t => { t with isChecked := true })
      let r :=
        if withKeyColumnIdx env ti then
          getTableColumnValues env kvs st1 ti (some col) [] [] false
        else
          getTableColumnValues env kvs st1 ti (some col)
            (if isFullPreparedOf st1 ti then [] else chunk) [] false
      if r.1 ≠ [] then
        let diff := setDiff r.1 (needOf r.2 fi)
        if diff ≠ [] then
          let st3 := setTS r.2 fi
            (fun t => { t with needTransferPks := setUnion t.needTransferPks diff })
          directTable env kvs fuel st3 fi diff stack
        else (r.2, stack)
      else (r.2, stack)

/-- `_direct_recursively_preparing_foreign_table`: chunk the ids and process
each chunk. -/
def directForeign (env : Env) (kvs : List Int) :
    Nat → PState → Nat → DBColumn → List Int → List Nat → PState × List Nat
  | 0, st, _, _, _, stack => (st, stack)
  | fuel + 1, st, ti, col, needPks, stack =>
    (makeChunks needPks CHUNK_SIZE).foldl
      (fun acc chunk => directForeignChunk env kvs fuel acc.1 ti col chunk acc.2)
      (st, stack)

/-- `_direct_recursively_preparing_table`. -/
def directTable (env : Env) (kvs : List Int) :
    Nat → PState → Nat → List Int → List Nat → PState × List Nat
  | 0, st, _, _, stack => (st, stack)
  | fuel + 1, st, ti, needPks, stack =>
    if stack.contains ti then (st, stack)
    else
      let stack1 := stack ++ [ti]
      let colsNS := (tableDef env ti).notSelfFkColumns.filter (fun c =>
        match refIdx env c with
        | none => false
        | some fi =>
          !(withKeyColumnIdx env fi) && !(stack1.contains fi) && !(readyOf st fi))
      let colsSelf := (tableDef env ti).selfFkColumns.filter (fun c =>
        match refIdx env c with
        | none => false
        | some fi => !(readyOf st fi))
      let acc1 := colsNS.foldl
        (fun acc c => directForeign env kvs fuel acc.1 ti c needPks acc.2)
        (st, stack1)
      let st2 := colsSelf.foldl
        (fun s c => (directForeign env kvs fuel s ti c needPks stack).1)
        acc1.1
      (setTS st2 ti (fun t => { t with isChecked := true }), acc1.2)

/-- `_revert_recursively_preparing_revert_table_column_chunk`. -/
def revertColumnChunk (env : Env) (kvs : List Int) :
    Nat → PState → Nat → DBColumn → List Int → PState
  | 0, st, _, _, _ => st
  | _ + 1, st, rt, rc, chunk =>
    let r := getTableColumnValues env kvs st rt ((tableDef env rt).primaryKey)
      [] [(rc.name, chunk)] true
    if r.1 ≠ [] then
      setTS r.2 rt (fun t => { t with needTransferPks := setUnion t.needTransferPks r.1 })
    else r.2

/-- `_revert_recursively_preparing_revert_table_column`. -/
def revertColumn (env : Env) (kvs : List Int) :
    Nat → PState → Nat → DBColumn → List Int → PState
  | 0, st, _, _, _ => st
  | fuel + 1, st, rt, rc, needPks =>
    (makeChunks needPks CHUNK_SIZE).foldl
      (fun s chunk => revertColumnChunk env kvs fuel s rt rc chunk) st

/-- `_revert_recursively_preparing_revert_table`. -/
def revertRevertTable (env : Env) (kvs : List Int) :
    Nat → PState → Nat → List DBColumn → Nat → List Nat → PState × List Nat
  | 0, st, _, _, _, stack => (st, stack)
  | fuel + 1, st, rt, rcols, srcTable, stack =>
    let pks := needOf st srcTable
    if pks ≠ [] then
      let rcols2 := rcols.filter (fun rc =>
        (highestPriorityFkColumns env.cfg env.schema (tableDef env rt)).contains rc)
      let st1 := rcols2.foldl (fun s rc => revertColumn env kvs fuel s rt rc pks) st
      if needOf st1 rt ≠ [] then
        let acc := revertTable env kvs fuel st1 rt stack
        let r := directTable env kvs fuel acc.1 rt (needOf acc.1 rt) stack
        (r.1, acc.2)
      else (st1, stack)
    else (st, stack)

/-- `_revert_recursively_preparing_table`. -/
def revertTable (env : Env) (kvs : List Int) :
    Nat → PState → Nat → List Nat → PState × List Nat
  | 0, st, _, stack => (st, stack)
  | fuel + 1, st, ti, stack =>
    if stack.contains ti then (st, stack)
    else
      let stack1 := stack ++ [ti]
      let rts := (revertForeignTablesOf env ti).filter (fun p =>
        !(withKeyColumnIdx env p.1) && p.1 ≠ ti && !(stack1.contains p.1) &&
          !(readyOf st p.1))
      let acc1 := rts.foldl
        (fun acc p => revertRevertTable env kvs fuel acc.1 p.1 p.2 ti acc.2)
        (st, stack1)
      (setTS acc1.1 ti (fun t => { t with isChecked := true }), acc1.2)

/-- `_prepare_tables_with_key_column`. -/
def prepareTableWithKeyColumn (env : Env) (kvs : List Int) :
    Nat → PState → Nat → PState
  | 0, st, _ => st
  | fuel + 1, st, ti =>
    if readyOf st ti then st
    else
      let r := getTableColumnValues env kvs st ti ((tableDef env ti).primaryKey)
        [] [] false
      let st2 := setTS r.2 ti (fun t => { t with isChecked := true })
      if r.1 ≠ [] then
        let st3 := setTS st2 ti
          (fun t => { t with needTransferPks := setUnion t.needTransferPks r.1 })
        let a1 := directTable env kvs fuel st3 ti r.1 []
        let a2 := revertTable env kvs fuel a1.1 ti []
        a2.1
      else st2

end

/-! ### The five collector stages and their composition

The per-stage collectors are all under src; their composition order
(`KeyTableCollector`, `FullTransferCollector`,
`TablesWithKeyColumnSiblingsCollector`, `GenericTablesCollector`,
`SortedByDependencyTablesCollector`) and the promotion of checked tables to
ready after each stage are modelled from the spec: the stage orchestrator of
the repository is not under src (spec, section 4.10). -/

/-- Promotion of every checked table to ready (done inside
`TablesWithKeyColumnSiblingsCollector.collect` and, per spec section 4.10,
by the orchestrator after every stage). -/
def promoteChecked (st : PState) : PState :=
  { st with tables := st.tables.map (fun t =>
      if t.isChecked then { t with isReady := true } else t) }

/-- `KeyTableCollector.collect`: write the tenant set into the key table and
mark it ready; no SQL.  A missing key table is the uncaught `KeyError` of
the source (the collector awaits this coroutine directly). -/
def keyTableStage (env : Env) (kvs : List Int) (st : PState) : Option PState :=
  match tableIdxByName env.schema env.cfg.keyTableName with
  | none => none
  | some k =>
    some (setTS st k (fun t =>
      { t with needTransferPks := setUnion t.needTransferPks kvs, isReady := true }))

/-- `FullTransferCollector._prepare_full_transfer_table`. -/
def prepareFullTransferTable (env : Env) (kvs : List Int) (st : PState) (ti : Nat) :
    PState :=
  if readyOf st ti then st
  else
    let r := getTableColumnValues env kvs st ti ((tableDef env ti).primaryKey) [] [] false
    let st2 := setTS r.2 ti (fun t => { t with isChecked := true })
    if r.1 ≠ [] then
      setTS st2 ti (fun t => { t with needTransferPks := setUnion t.needTransferPks r.1 })
    else st2

/-- `FullTransferCollector.collect`. -/
def fullTransferStage (env : Env) (kvs : List Int) (st : PState) : PState :=
  let tis := (List.range env.schema.length).filter
    (fun i => env.cfg.fullTransferTables.contains (tableDef env i).name)
  let st1 := tis.foldl (prepareFullTransferTable env kvs) st
  tis.foldl (fun s i =>
    if checkedOf s i then setTS s i (fun t => { t with isReady := true }) else s) st1

/-- `DstDatabase.tables_with_key_column` as indices (non-generic tables
carrying the key column, in schema order). -/
def tablesWithKeyColumnIdx (env : Env) : List Nat :=
  (List.range env.schema.length).filter (fun i =>
    !env.cfg.genericTables.contains (tableDef env i).name && withKeyColumnIdx env i)

/-- `TablesWithKeyColumnSiblingsCollector.collect`. -/
def keyColumnStage (env : Env) (kvs : List Int) (fuel : Nat) (st : PState) : PState :=
  promoteChecked
    ((tablesWithKeyColumnIdx env).foldl (prepareTableWithKeyColumn env kvs fuel) st)

/-- The composition of the two `django_content_type` lookups of
`GenericTablesCollector._prepare_content_type_tables`: destination rows
`(table_name, app_label, model)` joined with source rows
`(content_type_id, app_label, model)`.  A missing source key is the
`KeyError` of the composition loop; the building task dies there (the
exception is never retrieved from `asyncio.wait`), leaving the partial map. -/
def buildContentTypeTable (ctDst : List (String × String × String))
    (ctSrc : List (Int × String × String)) : List (String × Int) :=
  match ctDst with
  | [] => []
  | (tn, app, model) :: rest =>
    match ctSrc.find? (fun p => p.2.1 == app && p.2.2 == model) with
    | none => []
    | some p => (tn, p.1) :: buildContentTypeTable rest ctSrc

/-- `GenericTablesCollector._prepare_content_type_generic_data`.  The guard
failures that raise inside the task (missing `object_id` column, missing
primary key of the related table) kill only that task, leaving the state
unchanged. -/
def prepareContentTypeGenericData (env : Env) (kvs : List Int)
    (ctt : List (String × Int)) (st : PState) (gi : Nat) (relName : String) : PState :=
  if relName = "" then st
  else
    match tableIdxByName env.schema relName with
    | none => st
    | some ri =>
      match (tableDef env gi).columns.find? (fun c => c.name == "object_id") with
      | none => st
      | some objCol =>
        match (tableDef env ri).primaryKey with
        | none => st
        | some rpk =>
          if rpk.dataType ≠ objCol.dataType then st
          else
            let r := getTableColumnValues env kvs st gi ((tableDef env gi).primaryKey)
              [] [("object_id", needOf st ri),
                  ("content_type_id", [(alGet ctt relName).getD 0])] false
            setTS r.2 gi (fun t =>
              { t with needTransferPks := setUnion t.needTransferPks r.1 })

/-- `GenericTablesCollector._prepare_generic_table_data`. -/
def prepareGenericTableData (env : Env) (kvs : List Int) (ctt : List (String × Int))
    (st : PState) (gi : Nat) : PState :=
  (ctt.map (·.1)).foldl (fun s relName =>
    prepareContentTypeGenericData env kvs ctt s gi relName) st

/-- `GenericTablesCollector.collect`. -/
def genericStage (env : Env) (kvs : List Int)
    (ctDst : List (String × String × String)) (ctSrc : List (Int × String × String))
    (st : PState) : PState :=
  let ctt := buildContentTypeTable ctDst ctSrc
  ((env.cfg.genericTables.filter
      (fun n => !env.cfg.excludedTables.contains n)).filter (fun n => n ≠ "")).foldl
    (fun s n =>
      match tableIdxByName env.schema n with
      | none => s
      | some gi => prepareGenericTableData env kvs ctt s gi) st

/-- `SortedByDependencyTablesCollector._get_revert_table_column_values`. -/
def getRevertTableColumnValues (env : Env) (kvs : List Int) (st : PState)
    (ti rt : Nat) (rc : DBColumn) : PState :=
  let r := getTableColumnValues env kvs st rt (some rc)
    (if isFullPreparedOf st rt then [] else needOf st rt) [] true
  if r.1 ≠ [] then
    setTS r.2 ti (fun t => { t with needTransferPks := setUnion t.needTransferPks r.1 })
  else r.2

/-- `SortedByDependencyTablesCollector._prepare_revert_table`. -/
def prepareRevertTable (env : Env) (kvs : List Int) (st : PState)
    (ti rt : Nat) (rcols : List DBColumn) : PState :=
  if fkColumnsWithKeyColumn env.cfg env.schema (tableDef env rt) ≠ [] &&
      !(withKeyColumnIdx env ti) then st
  else if needOf st rt ≠ [] then
    rcols.foldl (fun s rc => getRevertTableColumnValues env kvs s ti rt rc) st
  else st

/-- `SortedByDependencyTablesCollector._prepare_unready_table`. -/
def prepareUnreadyTable (env : Env) (kvs : List Int) (st : PState) (ti : Nat) :
    PState :=
  let fkCols := highestPriorityFkColumns env.cfg env.schema (tableDef env ti)
  let wc := fkCols.foldl (fun acc c =>
      match refIdx env c with
      | none => acc
      | some fi =>
        if needOf st fi ≠ [] then
          if !(isFullPreparedOf st fi) then (acc.1 ++ [(c.name, needOf st fi)], acc.2)
          else (acc.1, true)
        else acc) (([] : List (String × List Int)), false)
  if fkCols ≠ [] && wc.1.isEmpty && !wc.2 then st
  else
    let r := getTableColumnValues env kvs st ti ((tableDef env ti).primaryKey)
      [] wc.1 false
    if fkCols ≠ [] && !wc.1.isEmpty && r.1.isEmpty then r.2
    else
      let st2 := setTS r.2 ti (fun t =>
        { t with needTransferPks := setUnion t.needTransferPks r.1 })
      let st3 := (revertForeignTablesOf env ti).foldl
        (fun s p => prepareRevertTable env kvs s ti p.1 p.2) st2
      let st4 :=
        if needOf st3 ti = [] then
          let ra := getTableColumnValues env kvs st3 ti ((tableDef env ti).primaryKey)
            [] [] false
          setTS ra.2 ti (fun t =>
            { t with needTransferPks := setUnion t.needTransferPks ra.1 })
        else st3
      setTS st4 ti (fun t => { t with isReady := true })

/-- `SortedByDependencyTablesCollector.collect`: iterate the dependency
order strictly sequentially, preparing every table that is not yet ready. -/
def depStage (env : Env) (kvs : List Int) (st : PState) : PState :=
  (sortedTablesByDependency env.cfg env.schema).foldl (fun s n =>
    match tableIdxByName env.schema n with
    | none => s
    | some ti => if readyOf s ti then s else prepareUnreadyTable env kvs s ti) st

/-- Initial state: empty transfer sets, no flags, `full_count` from the
external row-count stage.  Modelled from the spec: the row-count filling
stage (section 4.10, `FILLING_TABLES_ROWS_COUNTS`) is not under src; the
spec describes `full_count` as the estimated source row count. -/
def initState (env : Env) (fullCounts : List Nat) : PState :=
  ⟨(List.range env.schema.length).map (fun i => ⟨[], false, false, (fullCounts.get? i).getD 0⟩),
    []⟩

/-- The whole collection pipeline in the stage order of the spec, section
4.10 (modelled from the spec: the orchestrator is not under src): key table,
full transfer, key-column closure, generic closure, dependency-sorted
closure, with checked tables promoted to ready after every stage. -/
def runPipeline (env : Env) (kvs : List Int)
    (ctDst : List (String × String × String)) (ctSrc : List (Int × String × String))
    (fuel : Nat) (st0 : PState) : Option PState :=
  match keyTableStage env kvs st0 with
  | none => none
  | some s1 =>
    some (promoteChecked (depStage env kvs
      (promoteChecked (genericStage env kvs ctDst ctSrc
        (keyColumnStage env kvs fuel
          (promoteChecked (fullTransferStage env kvs
            (promoteChecked s1))))))))

/-! ### Concrete scenario for claim C1 (FK-closure invariant P2)

Schema: key table `kt`; tenant-scoped tables `p` and `a` (key column
`tenant_id`); `r` references `a` (column `f`) and `x` (column `d`); `x`
references `p` (column `e`).  Source: tenants are `{1, 2}`; `p` holds row 11
(tenant 1) and row 12 (tenant 2); `a` holds row 21 (tenant 1); `r` holds row
31 with `f = 21`, `d = 44`; `x` holds rows 43 (`e = 11`) and 44 (`e = 12`).
Requested tenant set: `{1}`.

The key-column stage pulls `r` (reverse pass from `a`), whose forward pass
pulls `x` row 44 via `SELECT d FROM r WHERE ...` (a selection with no
IS-NULL clause at all), but the forward pass never follows `x.e` because its
referent `p` carries the key column.  At termination `44 ∈ x.need_transfer_pks`
with `x.e = 12 ∉ p.need_transfer_pks = {11}`. -/

def pkCol (tn : String) : DBColumn :=
  { name := "id", tableName := tn, dataType := "integer",
    constraintTable := some tn, constraintTypes := ["PRIMARY KEY"] }

def plainCol (n tn : String) : DBColumn :=
  { name := n, tableName := tn, dataType := "integer",
    constraintTable := none, constraintTypes := [] }

def fkCol (n tn ref : String) : DBColumn :=
  { name := n, tableName := tn, dataType := "integer",
    constraintTable := some ref, constraintTypes := ["FOREIGN KEY"] }

def c1Schema : Schema :=
  [ ⟨"kt", [pkCol "kt"]⟩,
    ⟨"p", [pkCol "p", plainCol "tenant_id" "p"]⟩,
    ⟨"a", [pkCol "a", plainCol "tenant_id" "a"]⟩,
    ⟨"r", [pkCol "r", fkCol "f" "r" "a", fkCol "d" "r" "x"]⟩,
    ⟨"x", [pkCol "x", fkCol "e" "x" "p"]⟩ ]

def c1Src : SourceDB :=
  [ [ [("id", some 1)], [("id", some 2)] ],
    [ [("id", some 11), ("tenant_id", some 1)],
      [("id", some 12), ("tenant_id", some 2)] ],
    [ [("id", some 21), ("tenant_id", some 1)] ],
    [ [("id", some 31), ("f", some 21), ("d", some 44)] ],
    [ [("id", some 43), ("e", some 11)], [("id", some 44), ("e", some 12)] ] ]

def c1Cfg : Config :=
  { keyTableName := "kt", keyColumnNames := ["tenant_id"], excludedTables := [],
    fullTransferTables := [], genericTables := [] }

def c1Env : Env := ⟨c1Cfg, c1Schema, c1Src⟩

def c1Final : Option PState :=
  runPipeline c1Env [1] [] [] 20 (initState c1Env [2, 2, 1, 1, 2])

/-! ### Concrete scenario for claim C2 (no mutation after ready)

Schema: key table `kt`; tenant-scoped tables `p` and `s`; `s` has a foreign
key `gcol` into the generic table `g` (columns `object_id`,
`content_type_id`).  The key-column stage forward pass reaches `g` (marking
it checked, pulling row 31), so the stage promotion marks `g` ready.  The
generic stage then runs and adds row 32 (`object_id = 11 ∈ p.need`,
`content_type_id = 7 = ct(p)`) to the already-ready `g`. -/

def c2Schema : Schema :=
  [ ⟨"kt", [pkCol "kt"]⟩,
    ⟨"p", [pkCol "p", plainCol "tenant_id" "p"]⟩,
    ⟨"s", [pkCol "s", plainCol "tenant_id" "s", fkCol "gcol" "s" "g"]⟩,
    ⟨"g", [pkCol "g", plainCol "object_id" "g", plainCol "content_type_id" "g"]⟩ ]

def c2Src : SourceDB :=
  [ [ [("id", some 1)], [("id", some 2)] ],
    [ [("id", some 11), ("tenant_id", some 1)] ],
    [ [("id", some 21), ("tenant_id", some 1), ("gcol", some 31)] ],
    [ [("id", some 31), ("object_id", some 99), ("content_type_id", some 5)],
      [("id", some 32), ("object_id", some 11), ("content_type_id", some 7)] ] ]

def c2Cfg : Config :=
  { keyTableName := "kt", keyColumnNames := ["tenant_id"], excludedTables := [],
    fullTransferTables := [], genericTables := ["g"] }

def c2Env : Env := ⟨c2Cfg, c2Schema, c2Src⟩

/-- The state after the first three stages of the C2 scenario. -/
def c2AfterKeyColumn : Option PState :=
  (keyTableStage c2Env [1] (initState c2Env [2, 1, 1, 2])).map (fun s1 =>
    keyColumnStage c2Env [1] 20
      (promoteChecked (fullTransferStage c2Env [1] (promoteChecked s1))))

/-- The C2 state after the generic stage as well. -/
def c2AfterGeneric : Option PState :=
  c2AfterKeyColumn.map (fun s3 =>
    promoteChecked (genericStage c2Env [1] [("p", "app", "p")] [(7, "app", "p")] s3))

/-- The C2 scenario run to the end of the pipeline. -/
def c2Final : Option PState :=
  runPipeline c2Env [1] [("p", "app", "p")] [(7, "app", "p")] 20
    (initState c2Env [2, 1, 1, 2])

/-- C1: the code violates the FK-closure invariant P2.  At termination of
the whole pipeline on the C1 scenario, every table is ready, primary key 44
is in the transfer set of table `x` (index 4) — discovered by the forward
pass via `SELECT d FROM r WHERE id IN (...)`, a selection with no IS-NULL
clause — the source row 44 of `x` carries `e = 12` (not NULL), yet 12 is
not in the transfer set of the referenced table `p` (index 1), which holds
exactly `{11}`. -/
theorem c1_fk_closure_code_bug :
    c1Final.map (fun s =>
      (decide ((44 : Int) ∈ needOf s 4),
       decide ((12 : Int) ∈ needOf s 1),
       needOf s 1,
       s.tables.map (·.isReady))) =
      some (true, false, [11], [true, true, true, true, true]) ∧
    ((c1Src.get? 4).getD []).filterMap (fun r =>
      if rowValue r "id" = some 44 then some (rowValue r "e") else none) =
      [some 12] := by
  exact ⟨by decide, by decide⟩

/-- C2: the code mutates `need_transfer_pks` of a table after it has been
marked ready.  On the C2 scenario, after the key-column stage the generic
table `g` (index 3) is ready with transfer set `{31}`; the subsequent
generic-FK stage (which never consults `is_ready_for_transferring`) adds
primary key 32 to it, and the final pipeline state keeps the enlarged set. -/
theorem c2_ready_table_mutated_code_bug :
    c2AfterKeyColumn.map (fun s => (readyOf s 3, needOf s 3)) = some (true, [31]) ∧
    c2AfterGeneric.map (fun s => (readyOf s 3, needOf s 3)) = some (true, [31, 32]) ∧
    c2Final.map (fun s => needOf s 3) = some [31, 32] := by
  exact ⟨by decide, by decide, by decide⟩

/-! ### The SQL builder (repositories.py, lines 446-695)

String-level embedding of `SQLRepository.get_table_column_values_sql` and
`_select_table_column_values_part_sql`.  The class attribute
`CHUNK_SIZE = 60000` is taken as the parameter `chunkSize` (instantiated
with `CHUNK_SIZE` by the repository), and the module-level setting
`KEY_COLUMN_NAMES` as the parameter `keyColumnNames`.  Python dicts are
insertion-ordered, so `where_conditions_columns` is an association list; a
value set is a list in one iteration order.  Identifier values are integers
(`str` rendering), matching the pk/FK values the collectors pass. -/

/-- A column as the builder reads it: `name` and `data_type`. -/
structure SqlColumn where
  name : String
  dataType : String
deriving DecidableEq

/-- A table as the builder reads it: `name`, `with_key_column`,
`primary_key`, `key_column` and the column list behind
`get_column_by_name`. -/
structure SqlTable where
  name : String
  withKeyColumn : Bool
  primaryKey : SqlColumn
  keyColumn : SqlColumn
  columns : List SqlColumn
deriving DecidableEq

/-- `DBTable.get_column_by_name` (db_entities.py): first column with the
given name, else `None`. -/
def getColumnByName (t : SqlTable) (n : String) : Option SqlColumn :=
  t.columns.find? (fun c => c.name == n)

/-- Python `', '.join(strs)`. -/
def joinStr (sep : String) : List String → String
  | [] => ""
  | [x] => x
  | x :: y :: rest => x ++ sep ++ joinStr sep (y :: rest)

/-- `make_str_from_iterable` of helpers.py with `with_quotes=False`, over
integer values. -/
def makeStrFromIterable (ids : List Int) : String :=
  joinStr ", " (ids.map toString)

/-- `DataTypesEnum.NUMERAL` (enums.py). -/
def NUMERAL : List String :=
  ["smallint", "integer", "bigint", "smallserial", "serial", "bigserial"]

/-- `SQLRepository._get_ids_str_by_column_type`: numeral columns render ids
bare, any other type wraps each id in doubled single quotes. -/
def getIdsStrByColumnType (column : SqlColumn) (ids : List Int) : String :=
  if NUMERAL.contains column.dataType then
    joinStr ", " (ids.map toString)
  else
    joinStr ", " (ids.map (fun pk => "\x27\x27" ++ toString pk ++ "\x27\x27"))

/-- The per-condition WHERE template `w_cond_tmpl` (repositories.py,
lines 502-505). -/
def wCondTmpl (isRevert : Bool) (cName idsStr : String) : String :=
  if isRevert then cName ++ " in (" ++ idsStr ++ ")"
  else "(" ++ cName ++ " in (" ++ idsStr ++ ") or " ++ cName ++ " isnull)"

/-- One non-key condition's fragment list (repositories.py, lines 507-527):
chunk the ids by `chunkSize`, render each chunk, keep the fragments whose
rendering is non-empty. -/
def conditionFragList (chunkSize : Nat) (isRevert : Bool) (cName : String)
    (condColumn : SqlColumn) (cIds : List Int) : List String :=
  (makeChunks cIds chunkSize).filterMap (fun idsChunk =>
    if getIdsStrByColumnType condColumn idsChunk = "" then none
    else some (wCondTmpl isRevert cName (getIdsStrByColumnType condColumn idsChunk)))

/-- The `where_conditions` accumulation loop (repositories.py, lines
495-530): key-named conditions are skipped by `continue`; an empty value
set contributes the single fragment `isnull`; otherwise the condition
column is looked up (`None` makes `_get_ids_str_by_column_type` crash on a
missing attribute, modelled as `none`) and the chunked fragment list is
appended. -/
def whereConditionsLists (chunkSize : Nat) (keyColumnNames : List String)
    (table : SqlTable) (isRevert : Bool) :
    List (String × List Int) → Option (List (List String))
  | [] => some []
  | (cName, cIds) :: rest =>
    if keyColumnNames.contains cName then
      whereConditionsLists chunkSize keyColumnNames table isRevert rest
    else
      match cIds with
      | [] =>
        (whereConditionsLists chunkSize keyColumnNames table isRevert rest).map
          (fun r => [cName ++ " isnull"] :: r)
      | _ :: _ =>
        match getColumnByName table cName with
        | none => none
        | some condColumn =>
          (whereConditionsLists chunkSize keyColumnNames table isRevert rest).map
            (fun r => conditionFragList chunkSize isRevert cName condColumn cIds :: r)

/-- The combination step of repositories.py, lines 532-569: length-1
fragment lists are singled out; if every list is single, the one
combination is their values; otherwise the lists of length above 1 are
combined into their Cartesian product (built exactly as the deepcopy loop
does: each processed list appends one of its fragments to every existing
combination, grouped by fragment) and the single values are appended to
every combination. -/
def combinationsOf (whereConditions : List (List String)) : List (List String) :=
  if whereConditions.isEmpty then []
  else
    if ((whereConditions.filter (fun c => c.length == 1)).length ==
        whereConditions.length) then
      [(whereConditions.filter (fun c => c.length == 1)).map (fun c => c.headD "")]
    else
      match whereConditions.filter (fun c => 1 < c.length) with
      | [] => []
      | m0 :: mrest =>
        (mrest.foldl (fun combos condList =>
            condList.flatMap (fun c => combos.map (fun wc => wc ++ [c])))
            (m0.map (fun c => [c]))).map
          (fun comb =>
            comb ++ (whereConditions.filter (fun c => c.length == 1)).map
              (fun c => c.headD ""))

/-- `SQLRepository._select_table_column_values_part_sql` (lines 600-674):
drop fragments equal to the tautology `1`; if fragments were given and all
degenerate, no query; otherwise conjoin the fragments, the primary-key
restriction and (for a table with the key column) the tenant predicate, and
instantiate `SELECT_TABLE_COLUMN_VALUES_TEMPLATE`. -/
def selectTableColumnValuesPartSql (table : SqlTable) (column : SqlColumn)
    (keyColumnValues : List Int) (primaryKeyValues : List Int)
    (whereConditions : List String) : Option String :=
  if (whereConditions.filter (fun cond => cond != "1")).isEmpty &&
      !whereConditions.isEmpty then
    none
  else
    some (
      let s0 := joinStr " and " (whereConditions.filter (fun cond => cond != "1"))
      let s1 :=
        if !primaryKeyValues.isEmpty then
          if s0 != "" then
            s0 ++ " and " ++ table.primaryKey.name ++ " in (" ++
              getIdsStrByColumnType table.primaryKey primaryKeyValues ++ ")"
          else
            table.primaryKey.name ++ " in (" ++
              getIdsStrByColumnType table.primaryKey primaryKeyValues ++ ")"
        else s0
      let s2 :=
        if table.withKeyColumn && !keyColumnValues.isEmpty then
          if s1 != "" then
            s1 ++ " and " ++ table.keyColumn.name ++ " in (" ++
              makeStrFromIterable keyColumnValues ++ ") or " ++
              table.keyColumn.name ++ " isnull"
          else
            table.keyColumn.name ++ " in (" ++
              makeStrFromIterable keyColumnValues ++ ") or " ++
              table.keyColumn.name ++ " isnull"
        else s1
      "\n        SELECT \"" ++ column.name ++ "\" FROM \"" ++ table.name ++
        "\" " ++ (if s2 != "" then "where " ++ s2 else "") ++ ";\n    ")

/-- `SQLRepository.get_table_column_values_sql` (lines 446-598): build the
per-condition fragment lists, combine them, and emit one part query per
combination (dropping combinations whose part query degenerates); with no
combinations a single unconditioned part query is emitted. -/
def getTableColumnValuesSql (chunkSize : Nat) (keyColumnNames : List String)
    (table : SqlTable) (column : SqlColumn) (keyColumnValues : List Int)
    (primaryKeyValues : List Int)
    (whereConditionsColumns : List (String × List Int)) (isRevert : Bool) :
    Option (List String) :=
  match whereConditionsLists chunkSize keyColumnNames table isRevert
      whereConditionsColumns with
  | none => none
  | some whereConditions =>
    some (
      if (combinationsOf whereConditions).isEmpty then
        (selectTableColumnValuesPartSql table column keyColumnValues
          primaryKeyValues []).toList
      else
        (combinationsOf whereConditions).filterMap
          (selectTableColumnValuesPartSql table column keyColumnValues
            primaryKeyValues))

theorem toDigitsCore_ne_nil (b : Nat) :
    ∀ (fuel n : Nat) (acc : List Char), acc ≠ [] → Nat.toDigitsCore b fuel n acc ≠ [] := by
  intro fuel
  induction fuel with
  | zero => intro n acc h; simpa [Nat.toDigitsCore] using h
  | succ f ih =>
    intro n acc h
    simp only [Nat.toDigitsCore]
    split
    · simp
    · exact ih _ _ (by simp)

theorem toDigits_ne_nil (n : Nat) : Nat.toDigits 10 n ≠ [] := by
  show Nat.toDigitsCore 10 (n+1) n [] ≠ []
  simp only [Nat.toDigitsCore]
  split
  · simp
  · exact toDigitsCore_ne_nil 10 _ _ _ (by simp)

theorem nat_repr_ne_empty (n : Nat) : Nat.repr n ≠ "" := by
  intro h
  exact toDigits_ne_nil n (by simpa using congrArg String.data h)

theorem string_append_ne_empty_left (s t : String) (h : s ≠ "") : s ++ t ≠ "" := by
  intro he
  apply h
  have hd : s.data ++ t.data = ([] : List Char) := by
    have := congrArg String.data he
    simpa using this
  have hs : s.data = [] := (List.append_eq_nil.mp hd).1
  exact String.ext_iff.mpr (by simpa using hs)

theorem int_toString_ne_empty (i : Int) : toString i ≠ "" := by
  show Int.repr i ≠ ""
  match i with
  | Int.ofNat m => exact nat_repr_ne_empty m
  | Int.negSucc m => exact string_append_ne_empty_left "-" _ (by decide)

theorem joinStr_ne_empty (sep x : String) (xs : List String) (hx : x ≠ "") :
    joinStr sep (x :: xs) ≠ "" := by
  cases xs with
  | nil => simpa [joinStr] using hx
  | cons y rest =>
    show x ++ sep ++ joinStr sep (y :: rest) ≠ ""
    exact string_append_ne_empty_left _ _ (string_append_ne_empty_left _ _ hx)

theorem getIdsStr_ne_empty (c : SqlColumn) (x : Int) (xs : List Int) :
    getIdsStrByColumnType c (x :: xs) ≠ "" := by
  unfold getIdsStrByColumnType
  split
  · simp only [List.map_cons]
    exact joinStr_ne_empty _ _ _ (int_toString_ne_empty x)
  · simp only [List.map_cons]
    exact joinStr_ne_empty _ _ _
      (string_append_ne_empty_left ("\x27\x27" ++ toString x) "\x27\x27"
        (string_append_ne_empty_left "\x27\x27" (toString x) (by decide)))

theorem makeChunksFuel_flatten {β : Type} :
    ∀ (fuel : Nat) (l : List β) (size : Nat), l.length ≤ fuel →
      (makeChunksFuel fuel l size).flatten = l := by
  intro fuel
  induction fuel with
  | zero =>
    intro l size h
    match l with
    | [] => rfl
    | x :: rest => simp at h
  | succ f ih =>
    intro l size h
    match l with
    | [] => rfl
    | x :: rest =>
      show ((x :: rest.take (size - 1)) ++
        (makeChunksFuel f (rest.drop (size - 1)) size).flatten : List β) = x :: rest
      rw [ih _ _ (by simp only [List.length_drop]; simp only [List.length_cons] at h; omega)]
      simp [List.take_append_drop]

theorem makeChunks_flatten {β : Type} (l : List β) (size : Nat) :
    (makeChunks l size).flatten = l :=
  makeChunksFuel_flatten l.length l size (le_refl _)

theorem makeChunksFuel_mem {β : Type} :
    ∀ (fuel : Nat) (l : List β) (size : Nat) (ch : List β),
      ch ∈ makeChunksFuel fuel l size → ch ≠ [] ∧ (0 < size → ch.length ≤ size) := by
  intro fuel
  induction fuel with
  | zero =>
    intro l size ch h
    cases l <;> simp [makeChunksFuel] at h
  | succ f ih =>
    intro l size ch h
    cases l with
    | nil => simp [makeChunksFuel] at h
    | cons x rest =>
      simp only [makeChunksFuel] at h
      rcases List.mem_cons.mp h with heq | hmem
      · subst heq
        refine ⟨by simp, ?_⟩
        intro hs
        simp only [List.length_cons, List.length_take]
        omega
      · exact ih _ _ _ hmem

theorem makeChunks_mem {β : Type} (l : List β) (size : Nat) (ch : List β)
    (h : ch ∈ makeChunks l size) : ch ≠ [] ∧ (0 < size → ch.length ≤ size) :=
  makeChunksFuel_mem l.length l size ch h

theorem makeChunks_two_le {β : Type} (l : List β) (size : Nat) (hs : size ≠ 0)
    (hl : size < l.length) : 2 ≤ (makeChunks l size).length := by
  match h : makeChunks l size with
  | [] =>
    have := makeChunks_flatten l size
    rw [h] at this
    simp at this
    subst this
    simp at hl
  | [c] =>
    have hfl := makeChunks_flatten l size
    rw [h] at hfl
    simp only [List.flatten_cons, List.flatten_nil, List.append_nil] at hfl
    have hle := (makeChunks_mem l size c (by rw [h]; simp)).2 (Nat.pos_of_ne_zero hs)
    rw [← hfl] at hl
    simp only [List.length_cons, List.length_nil]
    omega
  | a :: b :: rest => simp

theorem length_filterMap_of_forall_some {α β : Type} (f : α → Option β) :
    ∀ l : List α, (∀ x ∈ l, (f x).isSome) → (l.filterMap f).length = l.length := by
  intro l
  induction l with
  | nil => intro _; rfl
  | cons x rest ih =>
    intro h
    obtain ⟨y, hy⟩ := Option.isSome_iff_exists.mp (h x (by simp))
    rw [List.filterMap_cons, hy]
    simp only [List.length_cons]
    rw [ih (fun a ha => h a (by simp [ha]))]

theorem conditionFragList_length (chunkSize : Nat) (isRevert : Bool)
    (cName : String) (condColumn : SqlColumn) (cIds : List Int) :
    (conditionFragList chunkSize isRevert cName condColumn cIds).length =
      (makeChunks cIds chunkSize).length := by
  apply length_filterMap_of_forall_some
  intro ch hch
  obtain ⟨hne, -⟩ := makeChunks_mem cIds chunkSize ch hch
  match ch, hne with
  | x :: xs, _ =>
    have := getIdsStr_ne_empty condColumn x xs
    simp [this]

theorem whereConditionsLists_skip (chunkSize : Nat) (keyColumnNames : List String)
    (table : SqlTable) (isRevert : Bool) :
    ∀ conds, whereConditionsLists chunkSize keyColumnNames table isRevert conds =
      whereConditionsLists chunkSize keyColumnNames table isRevert
        (conds.filter (fun p => !keyColumnNames.contains p.1)) := by
  intro conds
  induction conds with
  | nil => rfl
  | cons p rest ih =>
    obtain ⟨cName, cIds⟩ := p
    simp only [List.filter_cons]
    by_cases hk : keyColumnNames.contains cName = true
    · have hnot : (!keyColumnNames.contains (cName, cIds).1) = false := by
        show (!keyColumnNames.contains cName) = false
        rw [hk]
        rfl
      rw [hnot]
      simp only [whereConditionsLists]
      rw [if_pos hk]
      exact ih
    · have hk2 : keyColumnNames.contains cName = false := by
        cases hc : keyColumnNames.contains cName
        · rfl
        · exact absurd hc hk
      have hnot : (!keyColumnNames.contains (cName, cIds).1) = true := by
        show (!keyColumnNames.contains cName) = true
        rw [hk2]
        rfl
      rw [hnot]
      simp only [whereConditionsLists]
      rw [if_neg (by simp only [hk2]; decide), if_neg (by simp only [hk2]; decide)]
      cases cIds with
      | nil => rw [ih]
      | cons i0 irest => rw [ih]

theorem wcl_cons_key (chunkSize : Nat) (keyColumnNames : List String)
    (table : SqlTable) (isRevert : Bool) (n : String) (ids : List Int)
    (rest : List (String × List Int)) (hk : keyColumnNames.contains n = true) :
    whereConditionsLists chunkSize keyColumnNames table isRevert ((n, ids) :: rest) =
      whereConditionsLists chunkSize keyColumnNames table isRevert rest := by
  simp only [whereConditionsLists]
  rw [if_pos hk]

theorem wcl_cons_empty (chunkSize : Nat) (keyColumnNames : List String)
    (table : SqlTable) (isRevert : Bool) (n : String)
    (rest : List (String × List Int)) (hk : keyColumnNames.contains n = false) :
    whereConditionsLists chunkSize keyColumnNames table isRevert ((n, []) :: rest) =
      (whereConditionsLists chunkSize keyColumnNames table isRevert rest).map
        (fun r => [n ++ " isnull"] :: r) := by
  simp only [whereConditionsLists]
  rw [if_neg (by simp only [hk]; decide)]

theorem wcl_cons_missing (chunkSize : Nat) (keyColumnNames : List String)
    (table : SqlTable) (isRevert : Bool) (n : String) (i0 : Int) (irest : List Int)
    (rest : List (String × List Int)) (hk : keyColumnNames.contains n = false)
    (hc : getColumnByName table n = none) :
    whereConditionsLists chunkSize keyColumnNames table isRevert
      ((n, i0 :: irest) :: rest) = none := by
  simp only [whereConditionsLists]
  rw [if_neg (by simp only [hk]; decide), hc]

theorem wcl_cons_col (chunkSize : Nat) (keyColumnNames : List String)
    (table : SqlTable) (isRevert : Bool) (n : String) (i0 : Int) (irest : List Int)
    (rest : List (String × List Int)) (cc : SqlColumn)
    (hk : keyColumnNames.contains n = false)
    (hc : getColumnByName table n = some cc) :
    whereConditionsLists chunkSize keyColumnNames table isRevert
      ((n, i0 :: irest) :: rest) =
      (whereConditionsLists chunkSize keyColumnNames table isRevert rest).map
        (fun r => conditionFragList chunkSize isRevert n cc (i0 :: irest) :: r) := by
  simp only [whereConditionsLists]
  rw [if_neg (by simp only [hk]; decide), hc]

theorem whereConditionsLists_mem (chunkSize : Nat) (keyColumnNames : List String)
    (table : SqlTable) (isRevert : Bool) :
    ∀ (conds : List (String × List Int)) (fragLists : List (List String)),
      whereConditionsLists chunkSize keyColumnNames table isRevert conds =
        some fragLists →
      ∀ cName cIds condColumn, (cName, cIds) ∈ conds →
        keyColumnNames.contains cName = false → cIds ≠ [] →
        getColumnByName table cName = some condColumn →
        conditionFragList chunkSize isRevert cName condColumn cIds ∈ fragLists := by
  intro conds
  induction conds with
  | nil => intro fragLists _ cName cIds condColumn hmem; simp at hmem
  | cons p rest ih =>
    obtain ⟨n, ids⟩ := p
    intro fragLists hfl cName cIds condColumn hmem hkey hne hcol
    by_cases hk : keyColumnNames.contains n = true
    · rw [wcl_cons_key chunkSize keyColumnNames table isRevert n ids rest hk] at hfl
      rcases List.mem_cons.mp hmem with heq | hmem2
      · rw [Prod.mk.injEq] at heq
        rw [heq.1] at hkey
        rw [hkey] at hk
        simp at hk
      · exact ih fragLists hfl cName cIds condColumn hmem2 hkey hne hcol
    · have hk2 : keyColumnNames.contains n = false := by
        cases hcn : keyColumnNames.contains n
        · rfl
        · exact absurd hcn hk
      rcases List.mem_cons.mp hmem with heq | hmem2
      · rw [Prod.mk.injEq] at heq
        obtain ⟨h1, h2⟩ := heq
        subst h1
        subst h2
        match cIds, hne with
        | i0 :: irest, _ =>
          rw [wcl_cons_col chunkSize keyColumnNames table isRevert _ i0 irest rest
            condColumn hk2 hcol] at hfl
          match hrest : whereConditionsLists chunkSize keyColumnNames table
            isRevert rest with
          | none => rw [hrest] at hfl; simp at hfl
          | some r =>
            rw [hrest] at hfl
            simp only [Option.map_some'] at hfl
            rw [Option.some.injEq] at hfl
            rw [← hfl]
            simp
      · match ids with
        | [] =>
          rw [wcl_cons_empty chunkSize keyColumnNames table isRevert n rest hk2]
            at hfl
          match hrest : whereConditionsLists chunkSize keyColumnNames table
            isRevert rest with
          | none => rw [hrest] at hfl; simp at hfl
          | some r =>
            rw [hrest] at hfl
            simp only [Option.map_some'] at hfl
            rw [Option.some.injEq] at hfl
            rw [← hfl]
            exact List.mem_cons_of_mem _
              (ih r hrest cName cIds condColumn hmem2 hkey hne hcol)
        | i0 :: irest =>
          match hc : getColumnByName table n with
          | none =>
            rw [wcl_cons_missing chunkSize keyColumnNames table isRevert n i0 irest
              rest hk2 hc] at hfl
            simp at hfl
          | some cc =>
            rw [wcl_cons_col chunkSize keyColumnNames table isRevert n i0 irest rest
              cc hk2 hc] at hfl
            match hrest : whereConditionsLists chunkSize keyColumnNames table
              isRevert rest with
            | none => rw [hrest] at hfl; simp at hfl
            | some r =>
              rw [hrest] at hfl
              simp only [Option.map_some'] at hfl
              rw [Option.some.injEq] at hfl
              rw [← hfl]
              exact List.mem_cons_of_mem _
                (ih r hrest cName cIds condColumn hmem2 hkey hne hcol)

theorem cartFold_length :
    ∀ (ls : List (List String)) (acc : List (List String)),
      (ls.foldl (fun combos condList =>
        condList.flatMap (fun c => combos.map (fun wc => wc ++ [c]))) acc).length =
      acc.length * (ls.map List.length).prod := by
  intro ls
  induction ls with
  | nil => intro acc; simp
  | cons l rest ih =>
    intro acc
    rw [List.foldl_cons, ih]
    simp only [List.map_cons, List.prod_cons]
    have hstep : (l.flatMap (fun c => acc.map (fun wc => wc ++ [c]))).length =
        l.length * acc.length := by
      rw [List.length_flatMap]
      have hmap : (l.map (List.length ∘ fun c => acc.map (fun wc => wc ++ [c]))) =
          l.map (fun _ => acc.length) := by
        apply List.map_congr_left
        intro c _
        simp
      rw [hmap, List.map_const', List.sum_replicate, smul_eq_mul]
    rw [hstep]
    ring

theorem cartFold_mem :
    ∀ (ls : List (List String)) (acc : List (List String)) (comb : List String),
      comb ∈ ls.foldl (fun combos condList =>
        condList.flatMap (fun c => combos.map (fun wc => wc ++ [c]))) acc ↔
      ∃ pre suf, pre ∈ acc ∧ List.Forall₂ (fun c condList => c ∈ condList) suf ls ∧
        comb = pre ++ suf := by
  intro ls
  induction ls with
  | nil =>
    intro acc comb
    simp only [List.foldl_nil]
    constructor
    · intro h
      exact ⟨comb, [], h, List.Forall₂.nil, by simp⟩
    · rintro ⟨pre, suf, hpre, hsuf, heq⟩
      cases hsuf
      simpa [heq] using hpre
  | cons l rest ih =>
    intro acc comb
    rw [List.foldl_cons, ih]
    constructor
    · rintro ⟨pre2, suf, hpre2, hsuf, heq⟩
      rw [List.mem_flatMap] at hpre2
      obtain ⟨c, hc, hpre2⟩ := hpre2
      rw [List.mem_map] at hpre2
      obtain ⟨pre, hpre, hpe⟩ := hpre2
      refine ⟨pre, c :: suf, hpre, List.Forall₂.cons hc hsuf, ?_⟩
      rw [heq, ← hpe]
      simp
    · rintro ⟨pre, suf, hpre, hsuf, heq⟩
      cases hsuf with
      | cons hc hsuf2 =>
        rename_i c suf2
        refine ⟨pre ++ [c], suf2, ?_, hsuf2, ?_⟩
        · rw [List.mem_flatMap]
          exact ⟨c, hc, List.mem_map.mpr ⟨pre, hpre, rfl⟩⟩
        · rw [heq]
          simp

theorem combinationsOf_multiples (whereConditions : List (List String))
    (hM : whereConditions.filter (fun c => 1 < c.length) ≠ []) :
    (combinationsOf whereConditions).length =
      ((whereConditions.filter (fun c => 1 < c.length)).map List.length).prod ∧
    ∀ comb, comb ∈ combinationsOf whereConditions ↔
      ∃ choice, List.Forall₂ (fun c condList => c ∈ condList) choice
          (whereConditions.filter (fun c => 1 < c.length)) ∧
        comb = choice ++ (whereConditions.filter (fun c => c.length == 1)).map
          (fun c => c.headD "") := by
  match hMeq : whereConditions.filter (fun c => 1 < c.length) with
  | [] => exact absurd hMeq hM
  | m0 :: mrest =>
    have hne : whereConditions ≠ [] := by
      intro h
      rw [h] at hMeq
      simp at hMeq
    have hx : m0 ∈ whereConditions.filter (fun c => 1 < c.length) := by
      rw [hMeq]
      simp
    have hx2 := List.mem_filter.mp hx
    have hm0len : 1 < m0.length := by simpa using hx2.2
    have hlen : ¬(((whereConditions.filter (fun c => c.length == 1)).length ==
        whereConditions.length) = true) := by
      intro hb
      have hall := List.filter_length_eq_length.mp (beq_iff_eq.mp hb)
      have hm0 := hall m0 hx2.1
      simp at hm0
      omega
    have hcomb : combinationsOf whereConditions =
        ((mrest.foldl (fun combos condList =>
            condList.flatMap (fun c => combos.map (fun wc => wc ++ [c])))
            (m0.map (fun c => [c]))).map
          (fun comb =>
            comb ++ (whereConditions.filter (fun c => c.length == 1)).map
              (fun c => c.headD ""))) := by
      simp only [combinationsOf]
      rw [if_neg (by simp [List.isEmpty_iff, hne]), if_neg hlen, hMeq]
    rw [hMeq]
    constructor
    · rw [hcomb, List.length_map, cartFold_length]
      simp
    · intro comb
      rw [hcomb, List.mem_map]
      constructor
      · rintro ⟨comb2, hcomb2, heq⟩
        rw [cartFold_mem] at hcomb2
        obtain ⟨pre, suf, hpre, hsuf, heq2⟩ := hcomb2
        rw [List.mem_map] at hpre
        obtain ⟨c0, hc0, hpre0⟩ := hpre
        refine ⟨c0 :: suf, ?_, ?_⟩
        · exact List.Forall₂.cons hc0 hsuf
        · rw [← heq, heq2, ← hpre0]
          simp
      · rintro ⟨choice, hchoice, heq⟩
        cases hchoice with
        | cons hc0 hsuf =>
          rename_i c0 suf
          refine ⟨c0 :: suf, ?_, heq.symm⟩
          rw [cartFold_mem]
          refine ⟨[c0], suf, List.mem_map.mpr ⟨c0, hc0, rfl⟩, ?_, by simp⟩
          exact hsuf

/-- C4 (amended): for every call of the SQL builder with a mapping of
foreign conditions (the class attribute `CHUNK_SIZE = 60000` taken as the
parameter `chunkSize`): conditions named by a key column are skipped
outright (dropped from the output, never chunked); every other condition
with a non-empty value set contributes one fragment list with exactly one
WHERE fragment per `chunkSize`-chunk of its values (at least two fragments
when the set exceeds `chunkSize`); when at least one condition is chunked
into two or more fragments, the builder forms one combination per element
of the Cartesian product of the multi-fragment lists, appending every
single-fragment value to every combination; a combination whose fragments
all degenerate to the tautology `1` yields no query; and the output is one
part query per surviving combination. -/
theorem c4_sql_builder_chunking (chunkSize : Nat) (keyColumnNames : List String)
    (table : SqlTable) (column : SqlColumn) (kvs pks : List Int) (isRevert : Bool)
    (conds : List (String × List Int)) (fragLists : List (List String))
    (hsize : chunkSize ≠ 0)
    (hfl : whereConditionsLists chunkSize keyColumnNames table isRevert conds =
      some fragLists) :
    CHUNK_SIZE = 60000 ∧
    whereConditionsLists chunkSize keyColumnNames table isRevert conds =
      whereConditionsLists chunkSize keyColumnNames table isRevert
        (conds.filter (fun p => !keyColumnNames.contains p.1)) ∧
    (∀ cName cIds condColumn, (cName, cIds) ∈ conds →
      keyColumnNames.contains cName = false → cIds ≠ [] →
      getColumnByName table cName = some condColumn →
      conditionFragList chunkSize isRevert cName condColumn cIds ∈ fragLists ∧
      (conditionFragList chunkSize isRevert cName condColumn cIds).length =
        (makeChunks cIds chunkSize).length ∧
      (chunkSize < cIds.length →
        2 ≤ (conditionFragList chunkSize isRevert cName condColumn cIds).length)) ∧
    (fragLists.filter (fun c => 1 < c.length) ≠ [] →
      (combinationsOf fragLists).length =
        ((fragLists.filter (fun c => 1 < c.length)).map List.length).prod ∧
      ∀ comb, comb ∈ combinationsOf fragLists ↔
        ∃ choice, List.Forall₂ (fun c condList => c ∈ condList) choice
            (fragLists.filter (fun c => 1 < c.length)) ∧
          comb = choice ++ (fragLists.filter (fun c => c.length == 1)).map
            (fun c => c.headD "")) ∧
    (∀ wc : List String, wc ≠ [] → (∀ c ∈ wc, c = "1") →
      selectTableColumnValuesPartSql table column kvs pks wc = none) ∧
    getTableColumnValuesSql chunkSize keyColumnNames table column kvs pks conds
        isRevert =
      some (if (combinationsOf fragLists).isEmpty then
          (selectTableColumnValuesPartSql table column kvs pks []).toList
        else
          (combinationsOf fragLists).filterMap
            (selectTableColumnValuesPartSql table column kvs pks)) := by
  refine ⟨rfl, whereConditionsLists_skip chunkSize keyColumnNames table isRevert
    conds, ?_, combinationsOf_multiples fragLists, ?_, ?_⟩
  · intro cName cIds condColumn hmem hkey hne hcol
    refine ⟨whereConditionsLists_mem chunkSize keyColumnNames table isRevert conds
      fragLists hfl cName cIds condColumn hmem hkey hne hcol,
      conditionFragList_length chunkSize isRevert cName condColumn cIds, ?_⟩
    intro hbig
    rw [conditionFragList_length]
    exact makeChunks_two_le cIds chunkSize hsize hbig
  · intro wc hwc hall
    have h1 : wc.filter (fun cond => cond != "1") = [] := by
      apply List.filter_eq_nil_iff.mpr
      intro a ha
      simp [hall a ha]
    unfold selectTableColumnValuesPartSql
    rw [if_pos]
    match wc, hwc with
    | w :: ws, _ =>
      rw [h1]
      simp
  · unfold getTableColumnValuesSql
    rw [hfl]

/-- The table of the C4 scenarios: no key column on the table itself,
condition columns `f`, `g` and `tenant_id`, all of type `integer`. -/
def c4Tbl : SqlTable :=
  { name := "t", withKeyColumn := false,
    primaryKey := { name := "id", dataType := "integer" },
    keyColumn := { name := "tenant_id", dataType := "integer" },
    columns := [{ name := "f", dataType := "integer" },
      { name := "g", dataType := "integer" },
      { name := "tenant_id", dataType := "integer" }] }

/-- The constrained column of the C4 scenarios. -/
def c4Col : SqlColumn := { name := "cc", dataType := "integer" }

/-- C4, counterexample: a foreign condition whose allowed-value set exceeds
the chunk bound but whose column name is one of the key column names is
skipped outright by the builder (the `continue` at repositories.py line
496-497 fires before any chunking), so it is not split into per-chunk WHERE
fragments as the claim demands: the output is the single unconditioned
query, both at the real `CHUNK_SIZE = 60000` with 60001 values and at chunk
bound 2 with 3 values.  The same condition under a configuration in which
`tenant_id` is not a key column name is chunked into two queries. -/
theorem c4_counterexample :
    CHUNK_SIZE < ((List.range (CHUNK_SIZE + 1)).map Int.ofNat).length ∧
    getTableColumnValuesSql CHUNK_SIZE ["tenant_id"] c4Tbl c4Col [] []
      [("tenant_id", (List.range (CHUNK_SIZE + 1)).map Int.ofNat)] true =
      some ["\n        SELECT \"cc\" FROM \"t\" ;\n    "] ∧
    getTableColumnValuesSql 2 ["tenant_id"] c4Tbl c4Col [] []
      [("tenant_id", [1, 2, 3])] true =
      some ["\n        SELECT \"cc\" FROM \"t\" ;\n    "] ∧
    getTableColumnValuesSql 2 [] c4Tbl c4Col [] []
      [("tenant_id", [1, 2, 3])] true =
      some ["\n        SELECT \"cc\" FROM \"t\" where tenant_id in (1, 2);\n    ",
        "\n        SELECT \"cc\" FROM \"t\" where tenant_id in (3);\n    "] := by
  refine ⟨?_, by decide, by decide, by decide⟩
  simp [List.length_map, List.length_range]

/-- Witness for `c4_sql_builder_chunking` at chunk bound 2 with two chunked
conditions of three values each: the fragment lists carry one fragment per
chunk, and the emitted queries are the four elements of the Cartesian
product of the two chunk lists. -/
theorem c4_sql_builder_chunking_witness :
    whereConditionsLists 2 [] c4Tbl true [("f", [1, 2, 3]), ("g", [4, 5, 6])] =
      some [["f in (1, 2)", "f in (3)"], ["g in (4, 5)", "g in (6)"]] ∧
    getTableColumnValuesSql 2 [] c4Tbl c4Col [] []
      [("f", [1, 2, 3]), ("g", [4, 5, 6])] true =
      some ["\n        SELECT \"cc\" FROM \"t\" where f in (1, 2) and g in (4, 5);\n    ",
        "\n        SELECT \"cc\" FROM \"t\" where f in (3) and g in (4, 5);\n    ",
        "\n        SELECT \"cc\" FROM \"t\" where f in (1, 2) and g in (6);\n    ",
        "\n        SELECT \"cc\" FROM \"t\" where f in (3) and g in (6);\n    "] := by
  refine ⟨by decide, ?_⟩
  have h := (c4_sql_builder_chunking 2 [] c4Tbl c4Col [] [] true
    [("f", [1, 2, 3]), ("g", [4, 5, 6])]
    [["f in (1, 2)", "f in (3)"], ["g in (4, 5)", "g in (6)"]]
    (by decide) (by decide)).2.2.2.2.2
  rw [h]
  decide

/-- C9: the dependency-sorted collector iterates the tables strictly
sequentially (a left fold over the order list) in the order obtained by
prepending, to the concatenation of the reversed cyclic remainder and the
reversed acyclic output of Kahn's topological sort over the non-self FK
edges of the non-generic tables, every non-generic table that appears in
neither list. -/
theorem c9_dependency_sorted_order (env : Env) (kvs : List Int) (st : PState) :
    (∃ leftovers : List String,
      sortedTablesByDependency env.cfg env.schema =
        leftovers ++
          (topological_sort (dependencyPairs env.cfg env.schema)).cyclic.reverse ++
          (topological_sort (dependencyPairs env.cfg env.schema)).sorted.reverse ∧
      ∀ n, n ∈ leftovers ↔
        (n ∈ (tablesWithoutGenerics env.cfg env.schema).map (·.name) ∧
         n ∉ (topological_sort (dependencyPairs env.cfg env.schema)).cyclic ∧
         n ∉ (topological_sort (dependencyPairs env.cfg env.schema)).sorted)) ∧
    depStage env kvs st =
      (sortedTablesByDependency env.cfg env.schema).foldl (fun s n =>
        match tableIdxByName env.schema n with
        | none => s
        | some ti => if readyOf s ti then s else prepareUnreadyTable env kvs s ti) st := by
  constructor
  · refine ⟨((tablesWithoutGenerics env.cfg env.schema).map (·.name)).filter
      (fun n => !((topological_sort (dependencyPairs env.cfg env.schema)).cyclic.reverse ++
        (topological_sort (dependencyPairs env.cfg env.schema)).sorted.reverse).contains n),
      ?_, ?_⟩
    · rw [sortedTablesByDependency, List.append_assoc]
    · intro n
      simp [List.mem_filter, List.mem_append, List.mem_reverse, and_assoc,
        not_or]
  · rfl

/-! ### Claim C6: seed fidelity of the key table

The key-table collector writes the tenant set and marks the key table
ready; every later stage leaves the key table's state untouched.  The
preservation argument threads the invariant `keyInv`: the key table's
`TableState` is a fixed ready value and the table list keeps its length. -/

theorem mem_setInsert (l : List Int) (v x : Int) :
    x ∈ setInsert l v ↔ x ∈ l ∨ x = v := by
  unfold setInsert
  split
  · rename_i h
    constructor
    · exact Or.inl
    · rintro (hx | hx)
      · exact hx
      · rw [hx]
        simpa using h
  · simp

theorem mem_setUnion (vs : List Int) : ∀ (l : List Int) (x : Int),
    x ∈ setUnion l vs ↔ x ∈ l ∨ x ∈ vs := by
  induction vs with
  | nil => intro l x; simp [setUnion]
  | cons v rest ih =>
    intro l x
    show x ∈ setUnion (setInsert l v) rest ↔ _
    rw [ih, mem_setInsert]
    constructor
    · rintro ((h | h) | h)
      · exact Or.inl h
      · exact Or.inr (by simp [h])
      · exact Or.inr (by simp [h])
    · rintro (h | h)
      · exact Or.inl (Or.inl h)
      · rcases List.mem_cons.mp h with h | h
        · exact Or.inl (Or.inr h)
        · exact Or.inr h

theorem getTS_setTS_ne (st : PState) (i j : Nat) (f : TableState → TableState)
    (h : i ≠ j) : getTS (setTS st i f) j = getTS st j := by
  unfold getTS setTS
  rw [List.get?_set_ne _ _ h]

theorem getTS_setTS_self (st : PState) (i : Nat) (f : TableState → TableState)
    (h : i < st.tables.length) : getTS (setTS st i f) i = f (getTS st i) := by
  unfold getTS setTS
  rw [List.get?_set_eq_of_lt _ h]
  rfl

theorem setTS_tables_length (st : PState) (i : Nat) (f : TableState → TableState) :
    (setTS st i f).tables.length = st.tables.length := by
  unfold setTS
  exact List.length_set st.tables i _

theorem setTS_executed (st : PState) (i : Nat) (f : TableState → TableState) :
    (setTS st i f).executed = st.executed := rfl

theorem gtcv_tables (env : Env) (kvs : List Int) (st : PState) (ti : Nat)
    (col : Option DBColumn) (pkVals : List Int) (conds : List (String × List Int))
    (isRevert : Bool) :
    (getTableColumnValues env kvs st ti col pkVals conds isRevert).2.tables =
      st.tables := by
  unfold getTableColumnValues
  split
  · rfl
  · split
    · rfl
    · split
      · rfl
      · dsimp only
        split
        · rfl
        · rfl

theorem getTS_promoteChecked (st : PState) (i : Nat) :
    getTS (promoteChecked st) i =
      (if (getTS st i).isChecked then { getTS st i with isReady := true }
       else getTS st i) := by
  unfold getTS promoteChecked
  rw [List.get?_map]
  cases st.tables.get? i <;> rfl

theorem promoteChecked_tables_length (st : PState) :
    (promoteChecked st).tables.length = st.tables.length := by
  unfold promoteChecked
  exact List.length_map st.tables _

theorem ready_set_eta (T : TableState) (h : T.isReady = true) :
    { T with isReady := true } = T := by
  cases T
  simp at h
  rw [h]

/-- The C6 preservation invariant: table `k` holds the fixed ready state `T`
and the table list keeps length `L`. -/
def keyInv (k : Nat) (T : TableState) (L : Nat) (st : PState) : Prop :=
  getTS st k = T ∧ st.tables.length = L

theorem keyInv_ready (k : Nat) (T : TableState) (L : Nat) (st : PState)
    (hT : T.isReady = true) (h : keyInv k T L st) : readyOf st k = true := by
  unfold readyOf
  rw [h.1]
  exact hT

theorem keyInv_setTS (k : Nat) (T : TableState) (L : Nat) (st : PState) (j : Nat)
    (f : TableState → TableState) (h : keyInv k T L st) (hj : j ≠ k) :
    keyInv k T L (setTS st j f) :=
  ⟨by rw [getTS_setTS_ne st j k f hj]; exact h.1,
   by rw [setTS_tables_length]; exact h.2⟩

theorem keyInv_gtcv (env : Env) (kvs : List Int) (k : Nat) (T : TableState)
    (L : Nat) (st : PState) (ti : Nat) (col : Option DBColumn) (pkVals : List Int)
    (conds : List (String × List Int)) (isRevert : Bool) (h : keyInv k T L st) :
    keyInv k T L (getTableColumnValues env kvs st ti col pkVals conds isRevert).2 :=
  ⟨by unfold getTS; rw [gtcv_tables]; exact h.1,
   by rw [gtcv_tables]; exact h.2⟩

theorem keyInv_promoteChecked (k : Nat) (T : TableState) (L : Nat) (st : PState)
    (hT : T.isReady = true) (h : keyInv k T L st) :
    keyInv k T L (promoteChecked st) := by
  refine ⟨?_, by rw [promoteChecked_tables_length]; exact h.2⟩
  rw [getTS_promoteChecked, h.1]
  split
  · exact ready_set_eta T hT
  · rfl

theorem foldl_inv {σ α : Type} (f : σ → α → σ) (P : σ → Prop) :
    ∀ (l : List α) (s : σ), (∀ s a, a ∈ l → P s → P (f s a)) → P s →
      P (l.foldl f s) := by
  intro l
  induction l with
  | nil => intro s _ hs; exact hs
  | cons a rest ih =>
    intro s h hs
    rw [List.foldl_cons]
    exact ih _ (fun s2 b hb => h s2 b (by simp [hb])) (h s a (by simp) hs)

theorem tableIdxByName_get (schema : Schema) (n : String) (i : Nat)
    (h : tableIdxByName schema n = some i) :
    ∃ t, schema.get? i = some t ∧ t.name = n := by
  unfold tableIdxByName at h
  rw [List.findIdx?_eq_some_iff_findIdx_eq] at h
  obtain ⟨hlt, heq⟩ := h
  refine ⟨schema.get ⟨i, hlt⟩, by rw [List.get?_eq_get hlt], ?_⟩
  have hp : (fun t : DBTableDef => t.name == n) (schema.get ⟨i, hlt⟩) = true := by
    have := @List.findIdx_getElem _ (fun t : DBTableDef => t.name == n) schema
      (by rw [heq]; exact hlt)
    simpa [heq, List.get_eq_getElem] using this
  simpa using hp

theorem rcc_step (env : Env) (kvs : List Int) (k : Nat) (T : TableState) (L : Nat)
    (fuel : Nat) :
    ∀ (st : PState) (rt : Nat) (rc : DBColumn) (chunk : List Int),
      keyInv k T L st → rt ≠ k →
      keyInv k T L (revertColumnChunk env kvs (fuel + 1) st rt rc chunk) := by
  intro st rt rc chunk hinv hrt
  simp only [revertColumnChunk]
  split
  · apply keyInv_setTS
    · apply keyInv_gtcv
      exact hinv
    · exact hrt
  · apply keyInv_gtcv
    exact hinv

theorem rc_step (env : Env) (kvs : List Int) (k : Nat) (T : TableState) (L : Nat)
    (fuel : Nat)
    (ihRCC : ∀ (st : PState) (rt : Nat) (rc : DBColumn) (chunk : List Int),
      keyInv k T L st → rt ≠ k →
      keyInv k T L (revertColumnChunk env kvs fuel st rt rc chunk)) :
    ∀ (st : PState) (rt : Nat) (rc : DBColumn) (needPks : List Int),
      keyInv k T L st → rt ≠ k →
      keyInv k T L (revertColumn env kvs (fuel + 1) st rt rc needPks) := by
  intro st rt rc needPks hinv hrt
  simp only [revertColumn]
  exact foldl_inv _ (keyInv k T L) _ _
    (fun s ch _ hs => ihRCC s rt rc ch hs hrt) hinv

theorem dfc_step (env : Env) (kvs : List Int) (k : Nat) (T : TableState) (L : Nat)
    (fuel : Nat)
    (ihDT : ∀ (st : PState) (ti : Nat) (needPks : List Int) (stack : List Nat),
      keyInv k T L st → ti ≠ k →
      keyInv k T L (directTable env kvs fuel st ti needPks stack).1) :
    ∀ (st : PState) (ti : Nat) (col : DBColumn) (chunk : List Int)
      (stack : List Nat),
      keyInv k T L st → (∀ fi, refIdx env col = some fi → fi ≠ k) →
      keyInv k T L (directForeignChunk env kvs (fuel + 1) st ti col chunk stack).1 := by
  intro st ti col chunk stack hinv hfi
  simp only [directForeignChunk]
  split
  · exact hinv
  · rename_i fi heq
    have hfik := hfi fi heq
    have hinv1 : keyInv k T L
        (setTS st fi (fun t => { t with isChecked := true })) := by
      apply keyInv_setTS
      · exact hinv
      · exact hfik
    have hinvg : ∀ pk : List Int, keyInv k T L (getTableColumnValues env kvs
        (setTS st fi (fun t => { t with isChecked := true })) ti (some col) pk []
        false).2 := by
      intro pk
      apply keyInv_gtcv
      exact hinv1
    repeat' split
    all_goals first
      | exact hinvg _
      | exact ihDT _ _ _ _ (keyInv_setTS _ _ _ _ _ _ (hinvg _) hfik) hfik

theorem df_step (env : Env) (kvs : List Int) (k : Nat) (T : TableState) (L : Nat)
    (fuel : Nat)
    (ihDFC : ∀ (st : PState) (ti : Nat) (col : DBColumn) (chunk : List Int)
      (stack : List Nat),
      keyInv k T L st → (∀ fi, refIdx env col = some fi → fi ≠ k) →
      keyInv k T L (directForeignChunk env kvs fuel st ti col chunk stack).1) :
    ∀ (st : PState) (ti : Nat) (col : DBColumn) (needPks : List Int)
      (stack : List Nat),
      keyInv k T L st → (∀ fi, refIdx env col = some fi → fi ≠ k) →
      keyInv k T L (directForeign env kvs (fuel + 1) st ti col needPks stack).1 := by
  intro st ti col needPks stack hinv hfi
  simp only [directForeign]
  exact foldl_inv _ (fun acc : PState × List Nat => keyInv k T L acc.1) _ _
    (fun acc ch _ hacc => ihDFC acc.1 ti col ch acc.2 hacc hfi) hinv

theorem dt_step (env : Env) (kvs : List Int) (k : Nat) (T : TableState) (L : Nat)
    (hT : T.isReady = true) (fuel : Nat)
    (ihDF : ∀ (st : PState) (ti : Nat) (col : DBColumn) (needPks : List Int)
      (stack : List Nat),
      keyInv k T L st → (∀ fi, refIdx env col = some fi → fi ≠ k) →
      keyInv k T L (directForeign env kvs fuel st ti col needPks stack).1) :
    ∀ (st : PState) (ti : Nat) (needPks : List Int) (stack : List Nat),
      keyInv k T L st → ti ≠ k →
      keyInv k T L (directTable env kvs (fuel + 1) st ti needPks stack).1 := by
  intro st ti needPks stack hinv hti
  have hready := keyInv_ready k T L st hT hinv
  simp only [directTable]
  split
  · exact hinv
  · dsimp only
    apply keyInv_setTS
    · apply foldl_inv _ (keyInv k T L)
      · intro s c hc hs
        apply ihDF _ _ _ _ _ hs
        intro fi hfi heqk
        have hp := List.of_mem_filter hc
        rw [hfi] at hp
        subst heqk
        simp [hready] at hp
      · apply foldl_inv _ (fun acc : PState × List Nat => keyInv k T L acc.1)
        · intro acc c hc hacc
          apply ihDF _ _ _ _ _ hacc
          intro fi hfi heqk
          have hp := List.of_mem_filter hc
          rw [hfi] at hp
          subst heqk
          simp [hready] at hp
        · exact hinv
    · exact hti

theorem rrt_step (env : Env) (kvs : List Int) (k : Nat) (T : TableState) (L : Nat)
    (fuel : Nat)
    (ihRC : ∀ (st : PState) (rt : Nat) (rc : DBColumn) (needPks : List Int),
      keyInv k T L st → rt ≠ k →
      keyInv k T L (revertColumn env kvs fuel st rt rc needPks))
    (ihRT : ∀ (st : PState) (ti : Nat) (stack : List Nat),
      keyInv k T L st → ti ≠ k →
      keyInv k T L (revertTable env kvs fuel st ti stack).1)
    (ihDT : ∀ (st : PState) (ti : Nat) (needPks : List Int) (stack : List Nat),
      keyInv k T L st → ti ≠ k →
      keyInv k T L (directTable env kvs fuel st ti needPks stack).1) :
    ∀ (st : PState) (rt : Nat) (rcols : List DBColumn) (srcTable : Nat)
      (stack : List Nat),
      keyInv k T L st → rt ≠ k →
      keyInv k T L
        (revertRevertTable env kvs (fuel + 1) st rt rcols srcTable stack).1 := by
  intro st rt rcols srcTable stack hinv hrt
  have hst1 : keyInv k T L ((rcols.filter (fun rc =>
      (highestPriorityFkColumns env.cfg env.schema (tableDef env rt)).contains
        rc)).foldl
      (fun s rc => revertColumn env kvs fuel s rt rc (needOf st srcTable)) st) := by
    apply foldl_inv _ (keyInv k T L)
    · intro s rc _ hs
      exact ihRC _ _ _ _ hs hrt
    · exact hinv
  simp only [revertRevertTable]
  repeat' split
  all_goals dsimp only
  all_goals first
    | exact hinv
    | exact hst1
    | exact ihDT _ _ _ _ (ihRT _ _ _ hst1 hrt) hrt

theorem rt_step (env : Env) (kvs : List Int) (k : Nat) (T : TableState) (L : Nat)
    (hT : T.isReady = true) (fuel : Nat)
    (ihRRT : ∀ (st : PState) (rt : Nat) (rcols : List DBColumn) (srcTable : Nat)
      (stack : List Nat),
      keyInv k T L st → rt ≠ k →
      keyInv k T L (revertRevertTable env kvs fuel st rt rcols srcTable stack).1) :
    ∀ (st : PState) (ti : Nat) (stack : List Nat),
      keyInv k T L st → ti ≠ k →
      keyInv k T L (revertTable env kvs (fuel + 1) st ti stack).1 := by
  intro st ti stack hinv hti
  have hready := keyInv_ready k T L st hT hinv
  simp only [revertTable]
  split
  · exact hinv
  · dsimp only
    apply keyInv_setTS
    · apply foldl_inv _ (fun acc : PState × List Nat => keyInv k T L acc.1)
      · intro acc p hp2 hacc
        apply ihRRT _ _ _ _ _ hacc
        intro heqk
        have hp := List.of_mem_filter hp2
        rw [heqk] at hp
        simp [hready] at hp
      · exact hinv
    · exact hti

theorem ptwkc_step (env : Env) (kvs : List Int) (k : Nat) (T : TableState)
    (L : Nat) (hT : T.isReady = true) (fuel : Nat)
    (ihDT : ∀ (st : PState) (ti : Nat) (needPks : List Int) (stack : List Nat),
      keyInv k T L st → ti ≠ k →
      keyInv k T L (directTable env kvs fuel st ti needPks stack).1)
    (ihRT : ∀ (st : PState) (ti : Nat) (stack : List Nat),
      keyInv k T L st → ti ≠ k →
      keyInv k T L (revertTable env kvs fuel st ti stack).1) :
    ∀ (st : PState) (ti : Nat), keyInv k T L st →
      keyInv k T L (prepareTableWithKeyColumn env kvs (fuel + 1) st ti) := by
  intro st ti hinv
  have hready := keyInv_ready k T L st hT hinv
  simp only [prepareTableWithKeyColumn]
  split
  · exact hinv
  · rename_i hnr
    have hti : ti ≠ k := by
      intro heqk
      subst heqk
      exact hnr hready
    have hinv2 : keyInv k T L (setTS (getTableColumnValues env kvs st ti
        ((tableDef env ti).primaryKey) [] [] false).2 ti
        (fun t => { t with isChecked := true })) := by
      apply keyInv_setTS
      · apply keyInv_gtcv
        exact hinv
      · exact hti
    split
    · exact ihRT _ _ _ (ihDT _ _ _ _ (keyInv_setTS _ _ _ _ _ _ hinv2 hti) hti) hti
    · exact hinv2

/-- All eight functions of the key-column recursion preserve the key-table
invariant, at every fuel. -/
theorem keyColumn_preserves (env : Env) (kvs : List Int) (k : Nat)
    (T : TableState) (L : Nat) (hT : T.isReady = true) :
    ∀ fuel : Nat,
      (∀ (st : PState) (ti : Nat) (col : DBColumn) (chunk : List Int)
        (stack : List Nat),
        keyInv k T L st → (∀ fi, refIdx env col = some fi → fi ≠ k) →
        keyInv k T L (directForeignChunk env kvs fuel st ti col chunk stack).1) ∧
      (∀ (st : PState) (ti : Nat) (col : DBColumn) (needPks : List Int)
        (stack : List Nat),
        keyInv k T L st → (∀ fi, refIdx env col = some fi → fi ≠ k) →
        keyInv k T L (directForeign env kvs fuel st ti col needPks stack).1) ∧
      (∀ (st : PState) (ti : Nat) (needPks : List Int) (stack : List Nat),
        keyInv k T L st → ti ≠ k →
        keyInv k T L (directTable env kvs fuel st ti needPks stack).1) ∧
      (∀ (st : PState) (rt : Nat) (rc : DBColumn) (chunk : List Int),
        keyInv k T L st → rt ≠ k →
        keyInv k T L (revertColumnChunk env kvs fuel st rt rc chunk)) ∧
      (∀ (st : PState) (rt : Nat) (rc : DBColumn) (needPks : List Int),
        keyInv k T L st → rt ≠ k →
        keyInv k T L (revertColumn env kvs fuel st rt rc needPks)) ∧
      (∀ (st : PState) (rt : Nat) (rcols : List DBColumn) (srcTable : Nat)
        (stack : List Nat),
        keyInv k T L st → rt ≠ k →
        keyInv k T L (revertRevertTable env kvs fuel st rt rcols srcTable stack).1) ∧
      (∀ (st : PState) (ti : Nat) (stack : List Nat),
        keyInv k T L st → ti ≠ k →
        keyInv k T L (revertTable env kvs fuel st ti stack).1) ∧
      (∀ (st : PState) (ti : Nat), keyInv k T L st →
        keyInv k T L (prepareTableWithKeyColumn env kvs fuel st ti)) := by
  intro fuel
  induction fuel with
  | zero =>
    refine ⟨?_, ?_, ?_, ?_, ?_, ?_, ?_, ?_⟩
    · intro st ti col chunk stack hinv _
      exact hinv
    · intro st ti col needPks stack hinv _
      exact hinv
    · intro st ti needPks stack hinv _
      exact hinv
    · intro st rt rc chunk hinv _
      exact hinv
    · intro st rt rc needPks hinv _
      exact hinv
    · intro st rt rcols srcTable stack hinv _
      exact hinv
    · intro st ti stack hinv _
      exact hinv
    · intro st ti hinv
      exact hinv
  | succ n ih =>
    obtain ⟨ihDFC, ihDF, ihDT, ihRCC, ihRC, ihRRT, ihRT, ihPT⟩ := ih
    exact ⟨dfc_step env kvs k T L n ihDT,
      df_step env kvs k T L n ihDFC,
      dt_step env kvs k T L hT n ihDF,
      rcc_step env kvs k T L n,
      rc_step env kvs k T L n ihRCC,
      rrt_step env kvs k T L n ihRC ihRT ihDT,
      rt_step env kvs k T L hT n ihRRT,
      ptwkc_step env kvs k T L hT n ihDT ihRT⟩

theorem keyInv_fullTransferStage (env : Env) (kvs : List Int) (k : Nat)
    (T : TableState) (L : Nat) (hT : T.isReady = true) (hkL : k < L)
    (st : PState) (hinv : keyInv k T L st) :
    keyInv k T L (fullTransferStage env kvs st) := by
  simp only [fullTransferStage]
  apply foldl_inv _ (keyInv k T L)
  · intro s i _ hs
    split
    · by_cases hik : i = k
      · subst hik
        refine ⟨?_, by rw [setTS_tables_length]; exact hs.2⟩
        have hlt : i < s.tables.length := by rw [hs.2]; exact hkL
        simp only [getTS_setTS_self _ _ _ hlt, hs.1]
        exact ready_set_eta T hT
      · exact keyInv_setTS _ _ _ _ _ _ hs hik
    · exact hs
  · apply foldl_inv _ (keyInv k T L)
    · intro s i _ hs
      simp only [prepareFullTransferTable]
      split
      · exact hs
      · rename_i hnr
        have hik : i ≠ k := by
          intro heqk
          apply hnr
          rw [heqk]
          exact keyInv_ready k T L s hT hs
        split
        · apply keyInv_setTS
          · apply keyInv_setTS
            · apply keyInv_gtcv
              exact hs
            · exact hik
          · exact hik
        · apply keyInv_setTS
          · apply keyInv_gtcv
            exact hs
          · exact hik
    · exact hinv

theorem keyInv_keyColumnStage (env : Env) (kvs : List Int) (k : Nat)
    (T : TableState) (L : Nat) (hT : T.isReady = true) (fuel : Nat) (st : PState)
    (hinv : keyInv k T L st) : keyInv k T L (keyColumnStage env kvs fuel st) := by
  simp only [keyColumnStage]
  apply keyInv_promoteChecked _ _ _ _ hT
  apply foldl_inv _ (keyInv k T L)
  · intro s ti _ hs
    exact (keyColumn_preserves env kvs k T L hT fuel).2.2.2.2.2.2.2 s ti hs
  · exact hinv

theorem keyInv_genericStage (env : Env) (kvs : List Int)
    (ctDst : List (String × String × String)) (ctSrc : List (Int × String × String))
    (k : Nat) (T : TableState) (L : Nat)
    (hk : tableIdxByName env.schema env.cfg.keyTableName = some k)
    (hgen : env.cfg.genericTables.contains env.cfg.keyTableName = false)
    (st : PState) (hinv : keyInv k T L st) :
    keyInv k T L (genericStage env kvs ctDst ctSrc st) := by
  simp only [genericStage]
  apply foldl_inv _ (keyInv k T L)
  · intro s n hn hs
    split
    · exact hs
    · rename_i gi hgi
      have hne : gi ≠ k := by
        intro heqk
        subst heqk
        obtain ⟨t1, ht1, hn1⟩ := tableIdxByName_get env.schema n gi hgi
        obtain ⟨t2, ht2, hn2⟩ :=
          tableIdxByName_get env.schema env.cfg.keyTableName gi hk
        rw [ht1, Option.some.injEq] at ht2
        have hnk : n = env.cfg.keyTableName := by
          rw [← hn1, ← hn2, ht2]
        have hmem : n ∈ env.cfg.genericTables :=
          (List.mem_filter.mp (List.mem_filter.mp hn).1).1
        rw [hnk] at hmem
        exact absurd hmem (by simpa using hgen)
      simp only [prepareGenericTableData]
      apply foldl_inv _ (keyInv k T L)
      · intro s2 relName _ hs2
        simp only [prepareContentTypeGenericData]
        repeat' split
        all_goals first
          | exact hs2
          | (apply keyInv_setTS
             · apply keyInv_gtcv
               exact hs2
             · exact hne)
      · exact hs
  · exact hinv

theorem keyInv_prepareUnreadyTable (env : Env) (kvs : List Int) (k : Nat)
    (T : TableState) (L : Nat) (st : PState) (ti : Nat)
    (hinv : keyInv k T L st) (hti : ti ≠ k) :
    keyInv k T L (prepareUnreadyTable env kvs st ti) := by
  have hprt : ∀ (s : PState) (rt : Nat) (rcols : List DBColumn), keyInv k T L s →
      keyInv k T L (prepareRevertTable env kvs s ti rt rcols) := by
    intro s rt rcols hs
    simp only [prepareRevertTable]
    repeat' split
    all_goals first
      | exact hs
      | (apply foldl_inv _ (keyInv k T L)
         · intro s2 rc _ hs2
           simp only [getRevertTableColumnValues]
           repeat' split
           all_goals first
             | (apply keyInv_setTS
                · apply keyInv_gtcv
                  exact hs2
                · exact hti)
             | (apply keyInv_gtcv
                exact hs2)
         · exact hs)
  have hst3 : ∀ (conds : List (String × List Int)) (vals : List Int),
      keyInv k T L ((revertForeignTablesOf env ti).foldl
        (fun s p => prepareRevertTable env kvs s ti p.1 p.2)
        (setTS (getTableColumnValues env kvs st ti
            ((tableDef env ti).primaryKey) [] conds false).2 ti
          (fun t => { t with needTransferPks := setUnion t.needTransferPks vals }))) := by
    intro conds vals
    apply foldl_inv _ (keyInv k T L)
    · intro s2 p _ hs2
      exact hprt s2 p.1 p.2 hs2
    · apply keyInv_setTS
      · apply keyInv_gtcv
        exact hinv
      · exact hti
  simp only [prepareUnreadyTable]
  repeat' split
  all_goals first
    | exact hinv
    | (apply keyInv_gtcv
       exact hinv)
    | (apply keyInv_setTS
       · exact hst3 _ _
       · exact hti)
    | (apply keyInv_setTS
       · apply keyInv_setTS
         · apply keyInv_gtcv
           exact hst3 _ _
         · exact hti
       · exact hti)

theorem keyInv_depStage (env : Env) (kvs : List Int) (k : Nat) (T : TableState)
    (L : Nat) (hT : T.isReady = true) (st : PState) (hinv : keyInv k T L st) :
    keyInv k T L (depStage env kvs st) := by
  simp only [depStage]
  apply foldl_inv _ (keyInv k T L)
  · intro s n _ hs
    split
    · exact hs
    · rename_i ti hti2
      split
      · exact hs
      · rename_i hnr
        have hne : ti ≠ k := by
          intro heqk
          apply hnr
          rw [heqk]
          exact keyInv_ready k T L s hT hs
        exact keyInv_prepareUnreadyTable env kvs k T L s ti hs hne
  · exact hinv

theorem initState_needOf (env : Env) (fullCounts : List Nat) (k : Nat) :
    needOf (initState env fullCounts) k = [] := by
  unfold needOf getTS initState
  rw [List.get?_map]
  cases (List.range env.schema.length).get? k <;> rfl

theorem initState_tables_length (env : Env) (fullCounts : List Nat) :
    (initState env fullCounts).tables.length = env.schema.length := by
  unfold initState
  simp

/-- The update the key-table collector applies to the key table's state. -/
def keySeedUpd (kvs : List Int) (t : TableState) : TableState :=
  { t with needTransferPks := setUnion t.needTransferPks kvs, isReady := true }

/-- C6: starting from the initial state, the key-table collector writes
exactly the externally supplied tenant set into the key table's transfer
set and marks the table ready, executing no SQL; and the whole pipeline
ends with the key table's transfer set unchanged (no later stage adds to or
removes from it) and the table still ready. -/
theorem c6_key_table_seed (env : Env) (kvs : List Int) (fullCounts : List Nat)
    (ctDst : List (String × String × String)) (ctSrc : List (Int × String × String))
    (fuel : Nat) (k : Nat)
    (hk : tableIdxByName env.schema env.cfg.keyTableName = some k)
    (hgen : env.cfg.genericTables.contains env.cfg.keyTableName = false) :
    ∃ s1, keyTableStage env kvs (initState env fullCounts) = some s1 ∧
      (∀ v : Int, v ∈ needOf s1 k ↔ v ∈ kvs) ∧
      readyOf s1 k = true ∧
      s1.executed = [] ∧
      ∃ sf, runPipeline env kvs ctDst ctSrc fuel (initState env fullCounts) =
          some sf ∧
        needOf sf k = needOf s1 k ∧ readyOf sf k = true := by
  obtain ⟨t0, ht0, htn⟩ := tableIdxByName_get env.schema env.cfg.keyTableName k hk
  have hkL : k < env.schema.length := by
    by_contra hge
    rw [List.get?_eq_none.mpr (by omega)] at ht0
    exact absurd ht0 (by simp)
  have hlen := initState_tables_length env fullCounts
  have hklt : k < (initState env fullCounts).tables.length := by
    rw [hlen]
    exact hkL
  refine ⟨setTS (initState env fullCounts) k (keySeedUpd kvs), ?_, ?_, ?_, rfl, ?_⟩
  · simp only [keyTableStage, hk]
    rfl
  · intro v
    unfold needOf
    simp only [getTS_setTS_self _ _ _ hklt, keySeedUpd]
    have hn0 := initState_needOf env fullCounts k
    unfold needOf at hn0
    rw [hn0, mem_setUnion]
    simp
  · unfold readyOf
    simp only [getTS_setTS_self _ _ _ hklt, keySeedUpd]
  · have hT : (getTS (setTS (initState env fullCounts) k (keySeedUpd kvs))
        k).isReady = true := by
      simp only [getTS_setTS_self _ _ _ hklt, keySeedUpd]
    have hinv1 : keyInv k
        (getTS (setTS (initState env fullCounts) k (keySeedUpd kvs)) k)
        env.schema.length
        (setTS (initState env fullCounts) k (keySeedUpd kvs)) :=
      ⟨rfl, by rw [setTS_tables_length]; exact hlen⟩
    have h2 := keyInv_promoteChecked _ _ _ _ hT hinv1
    have h3 := keyInv_fullTransferStage env kvs _ _ _ hT hkL _ h2
    have h4 := keyInv_promoteChecked _ _ _ _ hT h3
    have h5 := keyInv_keyColumnStage env kvs _ _ _ hT fuel _ h4
    have h6 := keyInv_genericStage env kvs ctDst ctSrc _ _ _ hk hgen _ h5
    have h7 := keyInv_promoteChecked _ _ _ _ hT h6
    have h8 := keyInv_depStage env kvs _ _ _ hT _ h7
    have h9 := keyInv_promoteChecked _ _ _ _ hT h8
    refine ⟨_, by simp only [runPipeline, keyTableStage, hk]; rfl, ?_, ?_⟩
    · exact congrArg TableState.needTransferPks h9.1
    · exact (congrArg TableState.isReady h9.1).trans hT

/-- The configuration of the C6 witness environment. -/
def c6Cfg : Config :=
  { keyTableName := "kt"
    keyColumnNames := ["tenant_id"]
    excludedTables := []
    fullTransferTables := []
    genericTables := [] }

/-- A one-table environment for the C6 witness: the key table alone. -/
def c6Env : Env :=
  { cfg := c6Cfg
    schema := [{ name := "kt", columns := [pkCol "kt"] }]
    src := [[]] }

/-- Witness for `c6_key_table_seed` on the one-table environment with tenant
set `{1, 2}`. -/
theorem c6_key_table_seed_witness :
    ∃ s1, keyTableStage c6Env [1, 2] (initState c6Env [0]) = some s1 ∧
      (∀ v : Int, v ∈ needOf s1 0 ↔ v ∈ [(1 : Int), 2]) ∧
      readyOf s1 0 = true ∧
      s1.executed = [] ∧
      ∃ sf, runPipeline c6Env [1, 2] [] [] 1 (initState c6Env [0]) = some sf ∧
        needOf sf 0 = needOf s1 0 ∧ readyOf sf 0 = true :=
  c6_key_table_seed c6Env [1, 2] [0] [] [] 1 0 (by decide) (by decide)

end Databaser
